import Mathlib

/-!
# Verification development for `trecento/capua.py` (music21-tools)

Shallow embedding of the musica-ficta rule engine of Nicolaus de Capua
(`src/trecento/capua.py`) together with the parts of its environment that the
module consumes:

* pitches and diatonic intervals (the interval-construction primitive that the
  spec, section 6, declares an external collaborator: music21's
  `interval.notesToInterval`),
* per-note editorial state (music21 `Note.editorial` is a dictionary with
  attribute access; a slot that can be *absent*, *present-with-None*, or
  *present-with-a-value* is embedded as `Option (Option _)`),
* the five rule passes, `applyCapuaToStream`, the ficta promote/restore
  helpers, the classifier `getIntervalType`, the per-note and per-stream
  comparison tallies, and the corpus-level drivers `findCorrections` and
  `improvedHarmony` (corpus access via `cadencebook` is not part of the
  sources; it is modelled from the spec where noted).

Mutation-in-place on streams is embedded as list transformation: each rule
pass is a structural recursion that carries the sliding window, so that a
mutation of the pivot note is visible to all later windows, exactly as the
in-place Python scan behaves.
-/

namespace Capua

/-- Diatonic step letters (`Note.step` / `Pitch.step` in music21). -/
inductive Step
  | C | D | E | F | G | A | B
  deriving DecidableEq, Repr

/-- The accidentals that `capua.py` creates or inspects
(`pitch.Accidental('natural' | 'sharp' | 'flat')`). -/
inductive AccName
  | natural | sharp | flat
  deriving DecidableEq, Repr

/-- Index of a step on the staff within an octave (C = 0 … B = 6). -/
def stepIdx : Step → Int
  | .C => 0 | .D => 1 | .E => 2 | .F => 3 | .G => 4 | .A => 5 | .B => 6

/-- Semitone offset of the natural step within an octave. -/
def stepSemis : Step → Int
  | .C => 0 | .D => 2 | .E => 4 | .F => 5 | .G => 7 | .A => 9 | .B => 11

/-- Chromatic alteration contributed by an accidental (music21 `Accidental.alter`
for the three accidentals the module uses; an absent accidental alters by 0). -/
def alterOf : Option AccName → Int
  | none => 0 | some .natural => 0 | some .sharp => 1 | some .flat => -1

/-- A pitch: diatonic step, optional accidental, octave
(music21 `Pitch` restricted to the fields `capua.py` reads and writes). -/
structure Pitch where
  step : Step
  accidental : Option AccName
  octave : Int
  deriving DecidableEq, Repr

/-- Absolute staff position (diatonic steps from C0). -/
def staffPos (p : Pitch) : Int := 7 * p.octave + stepIdx p.step

/-- Absolute chromatic position in semitones (pitch space up to a constant). -/
def psPos (p : Pitch) : Int := 12 * p.octave + stepSemis p.step + alterOf p.accidental

/-- Interval quality specifier. music21 renders these as the letters in names
such as `M2`, `m-2`, `P5`, `A4`, `d5`; `aug k` / `dim k` carry the multiplicity
(`aug 1` = `A`, `aug 2` = `AA`, …).  The name strings of music21 are embedded
as the pair (quality, generic number), which the strings determine uniquely. -/
inductive Quality
  | perf | maj | minor | aug (k : Nat) | dim (k : Nat)
  deriving DecidableEq, Repr

/-- Semitone span of the major/perfect interval with simple generic index
`i = (n-1) % 7`. -/
def simpleMajSemis : Nat → Int
  | 0 => 0 | 1 => 2 | 2 => 4 | 3 => 5 | 4 => 7 | 5 => 9 | 6 => 11 | _ => 0

/-- Semitone span of the major/perfect interval of undirected generic size
`n ≥ 1` (octave compounding included). -/
def majSemis (n : Nat) : Int := 12 * ((n - 1) / 7 : Nat) + simpleMajSemis ((n - 1) % 7)

/-- Whether the undirected generic size belongs to the perfect family
(unison/fourth/fifth and their compounds). -/
def perfectableN (n : Nat) : Bool :=
  (n - 1) % 7 = 0 || (n - 1) % 7 = 3 || (n - 1) % 7 = 4

/-- Quality from the deviation `diff` of the semitone span from the
major/perfect span, following music21's specifier ladder. -/
def qualityOf (perfectable : Bool) (diff : Int) : Quality :=
  if 0 < diff then .aug diff.toNat
  else if perfectable then (if diff = 0 then .perf else .dim (-diff).toNat)
  else if diff = 0 then .maj
  else if diff = -1 then .minor
  else .dim (-diff - 1).toNat

/-- A diatonic interval descriptor: quality plus the signed generic number.
This is the information carried by music21's `DiatonicInterval` that
`capua.py` consumes (`directedName`, `name`, `simpleName`, `semiSimpleName`,
`specificName`, `generic.perfectable`, `generic.simpleUndirected`). -/
structure DiatonicIv where
  quality : Quality
  genericDirected : Int
  deriving DecidableEq, Repr

/-- Modelled from the spec: the external interval-construction primitive of
section 6, `diatonicInterval(eventA, eventB)` (music21
`interval.notesToInterval`, whose implementation is not among the sources):
generic size from the staff distance (`P1` for the same staff position),
quality from the deviation of the semitone distance from the major/perfect
span. -/
def notesToIntervalP (p1 p2 : Pitch) : DiatonicIv :=
  let sd := staffPos p2 - staffPos p1
  let gd : Int := if 0 < sd then sd + 1 else if sd < 0 then sd - 1 else 1
  let gu : Nat := gd.natAbs
  let semis : Int := (psPos p2 - psPos p1).natAbs
  ⟨qualityOf (perfectableN gu) (semis - majSemis gu), gd⟩

/-- `directedName` of music21, embedded as (quality, signed generic number):
the string `'M-2'` is the pair `(maj, -2)`. -/
def directedName (d : DiatonicIv) : Quality × Int := (d.quality, d.genericDirected)

/-- `name` (undirected) of music21, embedded as (quality, generic size). -/
def ivName (d : DiatonicIv) : Quality × Nat := (d.quality, d.genericDirected.natAbs)

/-- `generic.undirected`. -/
def genericUndirected (d : DiatonicIv) : Nat := d.genericDirected.natAbs

/-- `generic.simpleUndirected` (octave-reduced; octaves reduce to 1). -/
def simpleUndirected (d : DiatonicIv) : Nat := (genericUndirected d - 1) % 7 + 1

/-- `generic.semiSimpleUndirected` (octave-reduced, but octaves stay 8). -/
def semiSimpleUndirected (d : DiatonicIv) : Nat :=
  if simpleUndirected d = 1 && genericUndirected d ≠ 1 then 8 else simpleUndirected d

/-- `simpleName`, embedded as (quality, simple generic size). -/
def simpleName (d : DiatonicIv) : Quality × Nat := (d.quality, simpleUndirected d)

/-- `semiSimpleName`, embedded as (quality, semi-simple generic size). -/
def semiSimpleName (d : DiatonicIv) : Quality × Nat := (d.quality, semiSimpleUndirected d)

/-- `diatonic.specificName` (only its comparison with `'Perfect'` is consumed,
by `improvedHarmony`). -/
def specificName (d : DiatonicIv) : String :=
  match d.quality with
  | .perf => "Perfect"
  | .maj => "Major"
  | .minor => "Minor"
  | .aug 1 => "Augmented"
  | .dim 1 => "Diminished"
  | .aug _ => "Multiply Augmented"
  | .dim _ => "Multiply Diminished"

/-- The editorial dictionary of a note (music21 `Note.editorial`), restricted
to the slots `capua.py` touches.  A dictionary slot is absent (`none`),
present with value `None` (`some none`), or present with an accidental
(`some (some a)`); `hasattr` / `in` tests are `Option.isSome` on the outer
layer. -/
structure Editorial where
  ficta : Option (Option AccName) := none
  pmfcFicta : Option (Option AccName) := none
  capuaFicta : Option (Option AccName) := none
  savedFicta : Option (Option AccName) := none
  savedAccidental : Option (Option AccName) := none
  capuaRuleNumber : Option Nat := none
  harmonicInterval : Option (Option DiatonicIv) := none
  deriving DecidableEq, Repr

/-- A melodic event: a note or a rest, with duration in quarter lengths
(`MelodicEvent` of the spec; for a rest the pitch field is never read). -/
structure CNote where
  isRest : Bool
  pitch : Pitch
  duration : ℚ := 1
  editorial : Editorial := {}
  color : Option String := none
  deriving DecidableEq, Repr

/-- `interval.notesToInterval(n1, n2)` on two notes. -/
def notesToInterval (n1 n2 : CNote) : DiatonicIv := notesToIntervalP n1.pitch n2.pitch

/-- Rule-provenance constants of `capua.py`. -/
def RULE_ONE : Nat := 1
def RULE_TWO : Nat := 2
def RULE_THREE : Nat := 4
def RULE_FOUR_A : Nat := 8
def RULE_FOUR_B : Nat := 16

/-- `note.style.color = c`. -/
def setColor (c : String) (n : CNote) : CNote := { n with color := some c }

/-- Add a rule constant into `editorial.capuaRuleNumber`
(`+=` if present, fresh assignment otherwise). -/
def addRuleNumber (r : Nat) (e : Editorial) : Editorial :=
  { e with capuaRuleNumber := some (e.capuaRuleNumber.getD 0 + r) }

/-- The window test of `capuaRuleOne`: three consecutive non-rests, outer notes
accidental-free, pivot step neither A nor D, directed intervals `M-2` then
`M2`. -/
def rule1Match (n1 n2 n3 : CNote) : Bool :=
  !n1.isRest && !n2.isRest && !n3.isRest &&
  n1.pitch.accidental = none && n3.pitch.accidental = none &&
  !(n2.pitch.step = .A) && !(n2.pitch.step = .D) &&
  directedName (notesToInterval n1 n2) = (Quality.maj, -2) &&
  directedName (notesToInterval n2 n3) = (Quality.maj, 2)

/-- The pivot update shared by rules 1, 2 and 4B: add the rule constant, then
either clear a flat (saving it, proposing natural) or propose sharp. -/
def flatAwareFire (r : Nat) (greenFlat greenElse : String) (n : CNote) : CNote :=
  let e := addRuleNumber r n.editorial
  if n.pitch.accidental = some AccName.flat then
    { n with
      pitch := { n.pitch with accidental := none },
      editorial := { e with
        savedAccidental := some n.pitch.accidental,
        ficta := some (some .natural),
        capuaFicta := some (some .natural) },
      color := some greenFlat }
  else
    { n with
      editorial := { e with
        ficta := some (some .sharp),
        capuaFicta := some (some .sharp) },
      color := some greenElse }

/-- The scan shared by the three-note rules (1, 3, 4A, 4B): slide a window
`(a, b, head rest)` over the stream; on a match, update the pivot `b` with the
rule's firing action and color the outer notes.  The pivot mutation is carried
into the next window, as the in-place Python scan does. -/
def pass3Go (rule : CNote → CNote → CNote → Bool) (fire : CNote → CNote)
    (col : String) (a b : CNote) : List CNote → List CNote × Nat
  | [] => ([a, b], 0)
  | c :: rest =>
    if rule a b c then
      let r := pass3Go rule fire col (fire b) (setColor col c) rest
      (setColor col a :: r.1, r.2 + 1)
    else
      let r := pass3Go rule fire col b c rest
      (a :: r.1, r.2)

/-- A three-note rule pass over a whole stream: the stream (in-place effect)
and the number of matched pivots (the Python return value). -/
def pass3 (rule : CNote → CNote → CNote → Bool) (fire : CNote → CNote)
    (col : String) : List CNote → List CNote × Nat
  | a :: b :: rest => pass3Go rule fire col a b rest
  | s => (s, 0)

/-- `capuaRuleOne`. -/
def capuaRuleOne : List CNote → List CNote × Nat :=
  pass3 rule1Match (flatAwareFire RULE_ONE "forestGreen" "ForestGreen") "blue"

/-- The window test of `capuaRuleTwo`: four consecutive non-rests, notes 1, 2
and 4 accidental-free, pivot (note 3) step neither A nor D, directed intervals
`M2`, `m2`, `M2`. -/
def rule2Match (n1 n2 n3 n4 : CNote) : Bool :=
  !n1.isRest && !n2.isRest && !n3.isRest && !n4.isRest &&
  n1.pitch.accidental = none && n2.pitch.accidental = none &&
  n4.pitch.accidental = none &&
  !(n3.pitch.step = .A) && !(n3.pitch.step = .D) &&
  directedName (notesToInterval n1 n2) = (Quality.maj, 2) &&
  directedName (notesToInterval n2 n3) = (Quality.minor, 2) &&
  directedName (notesToInterval n3 n4) = (Quality.maj, 2)

/-- The scan of the four-note rule 2: window `(a, b, c, head rest)`, pivot
`c`. -/
def pass4Go (rule : CNote → CNote → CNote → CNote → Bool) (fire : CNote → CNote)
    (col : String) (a b c : CNote) : List CNote → List CNote × Nat
  | [] => ([a, b, c], 0)
  | d :: rest =>
    if rule a b c d then
      let r := pass4Go rule fire col (setColor col b) (fire c) (setColor col d) rest
      (setColor col a :: r.1, r.2 + 1)
    else
      let r := pass4Go rule fire col b c d rest
      (a :: r.1, r.2)

/-- A four-note rule pass over a whole stream. -/
def pass4 (rule : CNote → CNote → CNote → CNote → Bool) (fire : CNote → CNote)
    (col : String) : List CNote → List CNote × Nat
  | a :: b :: c :: rest => pass4Go rule fire col a b c rest
  | s => (s, 0)

/-- `capuaRuleTwo`. -/
def capuaRuleTwo : List CNote → List CNote × Nat :=
  pass4 rule2Match (flatAwareFire RULE_TWO "ForestGreen" "ForestGreen") "purple"

/-- The window test of `capuaRuleThree`: three consecutive non-rests, all three
accidental-free, pivot step neither A nor D, directed intervals `M-3` then
`M2`. -/
def rule3Match (n1 n2 n3 : CNote) : Bool :=
  !n1.isRest && !n2.isRest && !n3.isRest &&
  n1.pitch.accidental = none && n2.pitch.accidental = none &&
  n3.pitch.accidental = none &&
  !(n2.pitch.step = .A) && !(n2.pitch.step = .D) &&
  directedName (notesToInterval n1 n2) = (Quality.maj, -3) &&
  directedName (notesToInterval n2 n3) = (Quality.maj, 2)

/-- The pivot update of rule 3: always propose sharp; the pitch is never
touched. -/
def rule3Fire (n : CNote) : CNote :=
  { n with
    editorial := { addRuleNumber RULE_THREE n.editorial with
      ficta := some (some .sharp), capuaFicta := some (some .sharp) },
    color := some "ForestGreen" }

/-- `capuaRuleThree`. -/
def capuaRuleThree : List CNote → List CNote × Nat :=
  pass3 rule3Match rule3Fire "DeepPink"

/-- The window test of `capuaRuleFourA`: all three accidental-free, pivot step
neither A nor D, directed intervals `m-3` then `M-2`. -/
def rule4AMatch (n1 n2 n3 : CNote) : Bool :=
  !n1.isRest && !n2.isRest && !n3.isRest &&
  n1.pitch.accidental = none && n2.pitch.accidental = none &&
  n3.pitch.accidental = none &&
  !(n2.pitch.step = .A) && !(n2.pitch.step = .D) &&
  directedName (notesToInterval n1 n2) = (Quality.minor, -3) &&
  directedName (notesToInterval n2 n3) = (Quality.maj, -2)

/-- The pivot update of rule 4A: always propose flat. -/
def rule4AFire (n : CNote) : CNote :=
  { n with
    editorial := { addRuleNumber RULE_FOUR_A n.editorial with
      ficta := some (some .flat), capuaFicta := some (some .flat) },
    color := some "ForestGreen" }

/-- `capuaRuleFourA` (not part of the default pipeline). -/
def capuaRuleFourA : List CNote → List CNote × Nat :=
  pass3 rule4AMatch rule4AFire "orange"

/-- The window test of `capuaRuleFourB`: three consecutive non-rests, outer
notes accidental-free, pivot step neither A nor D, directed intervals `m3`
then `M2`. -/
def rule4BMatch (n1 n2 n3 : CNote) : Bool :=
  !n1.isRest && !n2.isRest && !n3.isRest &&
  n1.pitch.accidental = none && n3.pitch.accidental = none &&
  !(n2.pitch.step = .A) && !(n2.pitch.step = .D) &&
  directedName (notesToInterval n1 n2) = (Quality.minor, 3) &&
  directedName (notesToInterval n2 n3) = (Quality.maj, 2)

/-- `capuaRuleFourB`: the default pipeline's interpretation of rule 4. -/
def capuaRuleFourB : List CNote → List CNote × Nat :=
  pass3 rule4BMatch (flatAwareFire RULE_FOUR_B "green" "green") "orange"

/-- `clearAccidental(note1)`: move a present accidental into
`editorial.savedAccidental`, clear the pitch accidental. -/
def clearAccidental (n : CNote) : CNote :=
  if n.pitch.accidental = none then n
  else
    { n with
      pitch := { n.pitch with accidental := none },
      editorial := { n.editorial with savedAccidental := some n.pitch.accidental } }

/-- `restoreAccidental(note1)`: if `editorial.savedAccidental` is a present
key, move it back to the pitch accidental and leave the slot present with
value `None`. -/
def restoreAccidental (n : CNote) : CNote :=
  match n.editorial.savedAccidental with
  | none => n
  | some v =>
    { n with
      pitch := { n.pitch with accidental := v },
      editorial := { n.editorial with savedAccidental := some none } }

/-- `fictaToAccidental(note1)`. -/
def fictaToAccidental (n : CNote) : CNote :=
  match n.editorial.ficta with
  | some (some v) =>
    let n := if n.pitch.accidental = none then n else clearAccidental n
    { n with pitch := { n.pitch with accidental := some v } }
  | _ => n

/-- `pmfcFictaToAccidental(note1)`: promote the editors' ficta into the pitch,
saving the current accidental via `clearAccidental`. -/
def pmfcFictaToAccidental (n : CNote) : CNote :=
  match n.editorial.pmfcFicta with
  | some (some v) =>
    let n := clearAccidental n
    { n with pitch := { n.pitch with accidental := some v } }
  | _ => n

/-- `capuaFictaToAccidental(note1)`: promote Capua's ficta into the pitch,
saving the current accidental via `clearAccidental`. -/
def capuaFictaToAccidental (n : CNote) : CNote :=
  match n.editorial.capuaFicta with
  | some (some v) =>
    let n := clearAccidental n
    { n with pitch := { n.pitch with accidental := some v } }
  | _ => n

/-- Per-note step of `clearFicta` (applied to the non-rest notes of the
stream): back up a present `ficta` slot into `savedFicta`, then set `ficta`
to present-`None`. -/
def clearFictaNote (n : CNote) : CNote :=
  if n.isRest then n
  else
    let e := n.editorial
    let e := match e.ficta with
      | some v => { e with savedFicta := some v, ficta := some none }
      | none => { e with ficta := some none }
    { n with editorial := e }

/-- `clearFicta(srcStream)`. -/
def clearFicta (s : List CNote) : List CNote := s.map clearFictaNote

/-- Per-note step of `restoreFicta` (applied to every element of the raw
stream): a present, non-`None` `savedFicta` moves back into `ficta`. -/
def restoreFictaNote (n : CNote) : CNote :=
  match n.editorial.savedFicta with
  | some (some v) =>
    { n with editorial := { n.editorial with
        ficta := some (some v), savedFicta := some none } }
  | _ => n

/-- `restoreFicta(srcStream)`. -/
def restoreFicta (s : List CNote) : List CNote := s.map restoreFictaNote

/-- The preamble of `applyCapuaToStream`: any non-rest note carrying an
`editorial.ficta` key gets it copied to `editorial.pmfcFicta` and its
real accidental cleared. -/
def pmfcSaveNote (n : CNote) : CNote :=
  if n.isRest then n
  else
    match n.editorial.ficta with
    | some v => clearAccidental { n with editorial := { n.editorial with pmfcFicta := some v } }
    | none => n

/-- `applyCapuaToStream(thisStream)`: preamble, `clearFicta`, then rules 1, 2,
3 and 4B in this fixed order (rule 4A is excluded).  Returns the transformed
stream (the Python function mutates in place). -/
def applyCapuaToStream (s : List CNote) : List CNote :=
  (capuaRuleFourB (capuaRuleThree (capuaRuleTwo
    (capuaRuleOne (clearFicta (s.map pmfcSaveNote))).1).1).1).1

/-! ## Per-note and per-stream comparison of Capua with the PMFC editors -/

/-- The tally dictionary of `compareNoteCapuaToEditor` /
`compareSrcStreamCapuaToEditor`. -/
structure Tally where
  totalNotes : Nat := 0
  pmfcAlt : Nat := 0
  capuaAlt : Nat := 0
  pmfcNotCapua : Nat := 0
  capuaNotPmfc : Nat := 0
  pmfcAndCapua : Nat := 0
  deriving DecidableEq, Repr

/-- Componentwise sum of two tallies (the `totalDict[key] += thisDict[key]`
loop). -/
def tallyAdd (t u : Tally) : Tally :=
  ⟨t.totalNotes + u.totalNotes, t.pmfcAlt + u.pmfcAlt, t.capuaAlt + u.capuaAlt,
   t.pmfcNotCapua + u.pmfcNotCapua, t.capuaNotPmfc + u.capuaNotPmfc,
   t.pmfcAndCapua + u.pmfcAndCapua⟩

/-- `compareNoteCapuaToEditor(note1)`: the per-note agreement vector.  Key
presence of `pmfcFicta` / `capuaFicta` (the `in note1.editorial` tests) is
`Option.isSome` on the outer layer. -/
def compareNoteCapuaToEditor (n : CNote) : Tally :=
  if n.isRest then {}
  else if n.editorial.pmfcFicta.isSome && n.editorial.capuaFicta.isSome then
    { totalNotes := 1, pmfcAlt := 1, capuaAlt := 1, pmfcAndCapua := 1 }
  else if n.editorial.pmfcFicta.isSome then
    { totalNotes := 1, pmfcAlt := 1, pmfcNotCapua := 1 }
  else if n.editorial.capuaFicta.isSome then
    { totalNotes := 1, capuaAlt := 1, capuaNotPmfc := 1 }
  else { totalNotes := 1 }

/-- `compareSrcStreamCapuaToEditor(srcStream1)`: fold the per-note vectors
over the flattened notes-and-rests of the stream. -/
def compareSrcStreamCapuaToEditor (s : List CNote) : Tally :=
  s.foldl (fun acc n => tallyAdd acc (compareNoteCapuaToEditor n)) {}

/-! ## The interval classifier -/

/-- `PerfectCons = ['P1', 'P5', 'P8']`, names embedded as
(quality, generic size). -/
def PerfectCons : List (Quality × Nat) := [(.perf, 1), (.perf, 5), (.perf, 8)]

/-- `ImperfCons = ['m3', 'M3', 'm6', 'M6']`. -/
def ImperfCons : List (Quality × Nat) :=
  [(.minor, 3), (.maj, 3), (.minor, 6), (.maj, 6)]

/-- `Others = ['m2', 'M2', 'A2', 'd3', 'A3', 'd4', 'P4', 'A4', 'd5', 'A5',
'd6', 'A6', 'd7', 'm7', 'M7', 'A7']`. -/
def Others : List (Quality × Nat) :=
  [(.minor, 2), (.maj, 2), (.aug 1, 2), (.dim 1, 3), (.aug 1, 3), (.dim 1, 4),
   (.perf, 4), (.aug 1, 4), (.dim 1, 5), (.aug 1, 5), (.dim 1, 6), (.aug 1, 6),
   (.dim 1, 7), (.minor, 7), (.maj, 7), (.aug 1, 7)]

/-- `getIntervalType(interval1)`.  The argument is `None` (`none`), an interval
whose `.diatonic` is `None` (`some none`), or an interval with a diatonic
descriptor; the unrecognized case raises `CapuaException`, embedded as
`Except.error`. -/
def getIntervalType (iv : Option (Option DiatonicIv)) : Except String (Option String) :=
  match iv with
  | none => .ok none
  | some none => .ok none
  | some (some d) =>
    if ivName d ∈ PerfectCons then .ok (some "perfect cons")
    else if ivName d ∈ ImperfCons then .ok (some "imperfect cons")
    else if ivName d ∈ Others then .ok (some "dissonance")
    else .error "Wow!  The first interval of this kind I have ever seen in 14th century music!"

/-! ## The two-voice harmonic comparator and the corpus drivers

Corpus access (`cadencebook.BallataSheet`, `makeWork`, snippets and their
parts) and `Stream.attachIntervalsBetweenStreams` are collaborators whose code
is not among the sources; both are modelled from the spec (sections 4.4
and 6). -/

/-- Onsets of the events of a stream: prefix sums of the quarter-length
durations. -/
def withOnsets (s : List CNote) : List (ℚ × CNote) :=
  (s.foldl (fun (acc : ℚ × List (ℚ × CNote)) n =>
    (acc.1 + n.duration, (acc.1, n) :: acc.2)) (0, [])).2.reverse

/-- Modelled from the spec: the event of `s` that begins exactly at onset `t`,
if any (the offset-map lookup of section 4.4). -/
def simultaneousAt (s : List CNote) (t : ℚ) : Option CNote :=
  ((withOnsets s).find? (fun p => p.1 = t)).map (·.2)

/-- Modelled from the spec: `attachIntervalsBetweenStreams` (section 4.4) —
for every non-rest event of the first stream, store under
`editorial.harmonicInterval` the diatonic interval against the event of the
other stream that begins at the same onset; store `None` (present key,
`some none`) when there is no such event or it is a rest. -/
def attachIntervalsBetweenStreams (s other : List CNote) : List CNote :=
  (withOnsets s).map (fun p =>
    let n := p.2
    if n.isRest then n
    else
      let iv : Option DiatonicIv :=
        match simultaneousAt other p.1 with
        | some m => if m.isRest then none else some (notesToInterval n m)
        | none => none
      { n with editorial := { n.editorial with harmonicInterval := some iv } })

/-- Modelled from the spec: one polyphonic snippet of a cadencebook work
(section 6) — a flag distinguishing incipit snippets (skipped by the corpus
drivers) and the list of voice parts, each a flat note-and-rest sequence;
part `'C'` (cantus) is the first, part `'T'` (tenor) the second. -/
structure Snippet where
  isIncipit : Bool := false
  parts : List (List CNote) := []
  deriving DecidableEq, Repr

/-- Modelled from the spec: one corpus work — an optional incipit snippet (a
piece with `incipit is None` is skipped) and its snippet list (entries can be
`None`). -/
structure Piece where
  incipit : Option Snippet := none
  snippets : List (Option Snippet) := []
  deriving DecidableEq, Repr

/-- The tally of `findCorrections`: the six comparison categories plus
`potentialChange`. -/
structure TallyC where
  totalNotes : Nat := 0
  pmfcAlt : Nat := 0
  capuaAlt : Nat := 0
  pmfcNotCapua : Nat := 0
  capuaNotPmfc : Nat := 0
  pmfcAndCapua : Nat := 0
  potentialChange : Nat := 0
  deriving DecidableEq, Repr

/-- `totalDict[thisKey] += newResults[thisKey]` over the seven keys, where the
per-note `newResults` is a six-category tally with `potentialChange = 1`. -/
def tallyCAdd (t : TallyC) (u : Tally) (pc : Nat) : TallyC :=
  ⟨t.totalNotes + u.totalNotes, t.pmfcAlt + u.pmfcAlt, t.capuaAlt + u.capuaAlt,
   t.pmfcNotCapua + u.pmfcNotCapua, t.capuaNotPmfc + u.capuaNotPmfc,
   t.pmfcAndCapua + u.pmfcAndCapua, t.potentialChange + pc⟩

/-- The interval test on one note of the inner scan of `findCorrections`:
its harmonic interval exists and has the requested simple name. -/
def fcHasSimpleName (target : Quality × Nat) (n : CNote) : Bool :=
  match n.editorial.harmonicInterval with
  | some (some d) => simpleName d = target
  | _ => false

/-- The resolution test of `findCorrections` on one of the following notes:
for `Maj3` a simple `P1`, for `min6` a semi-simple `P8`. -/
def fcResolves (isMaj3 : Bool) (n : CNote) : Bool :=
  match n.editorial.harmonicInterval with
  | some (some d) =>
    if isMaj3 then simpleName d = ((Quality.perf, 1) : Quality × Nat)
    else semiSimpleName d = ((Quality.perf, 8) : Quality × Nat)
  | _ => false

/-- The `nextFewNotes` slice of `findCorrections` for the note at index `i`
of a non-rest sequence of length `len` (`None` embeds the `continue` on the
very last note). -/
def fcNextFew (notesToCheck : Nat) (notes : List CNote) (i : Nat) :
    Option (List CNote) :=
  let len := notes.length
  if (i : Int) ≥ (len : Int) - (notesToCheck : Int) then
    if i = len - 1 ∧ 1 ≤ len then none
    else some (notes.drop (i + 1))
  else some ((notes.drop (i + 1)).take notesToCheck)

/-- Whether the note at index `i` qualifies in the correction search: carries
the requested harmonic interval and one of the following notes resolves. -/
def fcQualifies (isMaj3 : Bool) (notesToCheck : Nat) (target : Quality × Nat)
    (notes : List CNote) (i : Nat) (n : CNote) : Bool :=
  fcHasSimpleName target n &&
  (match fcNextFew notesToCheck notes i with
   | none => false
   | some nextFew => nextFew.any (fcResolves isMaj3))

/-- The per-note accumulation step of `findCorrections`: on a qualifying note,
add its `compareNoteCapuaToEditor` vector plus `potentialChange = 1`, and
(only if the snippet is not yet in the output collection) insert the snippet
when `capuaNotPmfc == 1`. -/
def fcNoteStep (snip : Snippet) (isMaj3 : Bool) (notesToCheck : Nat)
    (target : Quality × Nat) (notes : List CNote)
    (st : TallyC × List Snippet × Bool) (i : Nat) (n : CNote) :
    TallyC × List Snippet × Bool :=
  if fcQualifies isMaj3 notesToCheck target notes i n then
    let newR := compareNoteCapuaToEditor n
    let (tally, opus, appended) := st
    let (opus, appended) :=
      if newR.capuaNotPmfc = 1 ∧ appended = false then (opus ++ [snip], true)
      else (opus, appended)
    (tallyCAdd tally newR 1, opus, appended)
  else st

/-- Scan one voice of a snippet: `enumerate(srcStreamNotes)` with the rests
removed. -/
def fcScanStream (snip : Snippet) (isMaj3 : Bool) (notesToCheck : Nat)
    (target : Quality × Nat) (s : List CNote) (st : TallyC × List Snippet × Bool) :
    TallyC × List Snippet × Bool :=
  let notes := s.filter (fun n => !n.isRest)
  (notes.enum.foldl (fun acc p => fcNoteStep snip isMaj3 notesToCheck target
    notes acc p.1 p.2) st)

/-- Process one snippet of `findCorrections`: skip `None`, incipit snippets
and snippets with fewer than two parts; attach harmonic intervals between
cantus and tenor both ways, insert the snippet into the output collection
(the unconditional insert of the source), run `applyCapuaToStream` on both
voices, then scan both voices for qualifying notes. -/
def fcSnippetStep (isMaj3 : Bool) (notesToCheck : Nat) (target : Quality × Nat)
    (st : TallyC × List Snippet) (osnip : Option Snippet) : TallyC × List Snippet :=
  match osnip with
  | none => st
  | some snip =>
    if snip.isIncipit then st
    else if snip.parts.length < 2 then st
    else
      let s1 := snip.parts.getD 0 []
      let s2 := snip.parts.getD 1 []
      let s1a := attachIntervalsBetweenStreams s1 s2
      let s2a := attachIntervalsBetweenStreams s2 s1
      let (tally, opus) := st
      let opus := opus ++ [snip]
      let appended := true
      let s1c := applyCapuaToStream s1a
      let s2c := applyCapuaToStream s2a
      let acc := fcScanStream snip isMaj3 notesToCheck target s1c (tally, opus, appended)
      let acc := fcScanStream snip isMaj3 notesToCheck target s2c acc
      (acc.1, acc.2.1)

/-- Process one piece: skip it entirely when its incipit is unset, otherwise
fold over its snippets. -/
def fcPieceStep (isMaj3 : Bool) (notesToCheck : Nat) (target : Quality × Nat)
    (st : TallyC × List Snippet) (piece : Piece) : TallyC × List Snippet :=
  match piece.incipit with
  | none => st
  | some _ => piece.snippets.foldl (fcSnippetStep isMaj3 notesToCheck target) st

/-- `findCorrections(correctionType, …)` over a corpus of pieces (the corpus
iteration via `cadencebook` is modelled from the spec as a list of pieces in
ascending piece order).  An unsupported `correctionType` raises
`CapuaException` before any corpus work. -/
def findCorrections (correctionType : String) (corpus : List Piece) :
    Except String (TallyC × List Snippet) :=
  if correctionType = "Maj3" then
    .ok (corpus.foldl (fcPieceStep true 1 (Quality.minor, 3)) ({}, []))
  else if correctionType = "min6" then
    .ok (corpus.foldl (fcPieceStep false 2 (Quality.maj, 6)) ({}, []))
  else
    .error "Invalid correctionType to check; I can check Maj3 or min6"

/-- The result dictionary of `improvedHarmony`. -/
structure CheckDict where
  perfIgnored : Nat := 0
  perfCapua : Nat := 0
  imperfIgnored : Nat := 0
  imperfCapua : Nat := 0
  deriving DecidableEq, Repr

/-- The per-note accumulation step of `improvedHarmony`: perfectable harmonic
intervals that are not fourths are sorted by whether their quality is perfect
and whether Capua proposed an alteration. -/
def ihNoteStep (cd : CheckDict) (n : CNote) : CheckDict :=
  match n.editorial.harmonicInterval with
  | some (some d) =>
    if perfectableN (genericUndirected d) = false ∨ simpleUndirected d = 4 then cd
    else if specificName d = "Perfect" then
      if n.editorial.capuaFicta.isSome then { cd with perfCapua := cd.perfCapua + 1 }
      else { cd with perfIgnored := cd.perfIgnored + 1 }
    else
      if n.editorial.capuaFicta.isSome then { cd with imperfCapua := cd.imperfCapua + 1 }
      else { cd with imperfIgnored := cd.imperfIgnored + 1 }
  | _ => cd

/-- Process one snippet of `improvedHarmony`: same skipping as
`findCorrections`; intervals are attached to the cantus only, Capua's rules
run on the cantus only, and both voices' non-rest notes are scanned (the
tenor contributes nothing since it carries no harmonic intervals). -/
def ihSnippetStep (cd : CheckDict) (osnip : Option Snippet) : CheckDict :=
  match osnip with
  | none => cd
  | some snip =>
    if snip.isIncipit then cd
    else if snip.parts.length < 2 then cd
    else
      let s1 := snip.parts.getD 0 []
      let s2 := snip.parts.getD 1 []
      let s1a := attachIntervalsBetweenStreams s1 s2
      let s1c := applyCapuaToStream s1a
      let cd := (s1c.filter (fun n => !n.isRest)).foldl ihNoteStep cd
      (s2.filter (fun n => !n.isRest)).foldl ihNoteStep cd

/-- Process one piece of `improvedHarmony`: skipped when its incipit is
unset. -/
def ihPieceStep (cd : CheckDict) (piece : Piece) : CheckDict :=
  match piece.incipit with
  | none => cd
  | some _ => piece.snippets.foldl ihSnippetStep cd

/-- `improvedHarmony()` over a corpus of pieces. -/
def improvedHarmony (corpus : List Piece) : CheckDict :=
  corpus.foldl ihPieceStep {}

/-! ## Helper notes and lemmas shared by the claim theorems -/

/-- A plain non-rest note. -/
def simpleNote (s : Step) (acc : Option AccName) (o : Int) : CNote :=
  { isRest := false, pitch := ⟨s, acc, o⟩ }

/-- The `capuaRuleNumber` slot of a note. -/
def crnOf (n : CNote) : Option Nat := n.editorial.capuaRuleNumber

/-- One pass relates input and output notes positionwise: the rule number is
untouched or was incremented once by the pass's constant. -/
def crnRel (r : Nat) (m n : CNote) : Prop :=
  crnOf n = crnOf m ∨ crnOf n = some ((crnOf m).getD 0 + r)

theorem crnOf_setColor (c : String) (n : CNote) : crnOf (setColor c n) = crnOf n := rfl

theorem crnOf_flatAwareFire (r : Nat) (gf ge : String) (n : CNote) :
    crnOf (flatAwareFire r gf ge n) = some ((crnOf n).getD 0 + r) := by
  unfold flatAwareFire crnOf addRuleNumber
  split <;> rfl

theorem crnOf_rule3Fire (n : CNote) :
    crnOf (rule3Fire n) = some ((crnOf n).getD 0 + RULE_THREE) := rfl

theorem crnOf_rule4AFire (n : CNote) :
    crnOf (rule4AFire n) = some ((crnOf n).getD 0 + RULE_FOUR_A) := rfl

theorem crnRel_congr {r : Nat} {c c' x : CNote} (h : crnOf c' = crnOf c)
    (h' : crnRel r c' x) : crnRel r c x := by
  unfold crnRel at h' ⊢
  rw [h] at h'
  exact h'

theorem crnRel_refl (r : Nat) (n : CNote) : crnRel r n n := Or.inl rfl

theorem forall₂_crnRel_refl (r : Nat) (l : List CNote) : List.Forall₂ (crnRel r) l l := by
  induction l with
  | nil => exact .nil
  | cons a t ih => exact .cons (crnRel_refl r a) ih

theorem forall₂_crnRel_congr {r : Nat} {c c' : CNote} {l t : List CNote}
    (h : crnOf c' = crnOf c) (h' : List.Forall₂ (crnRel r) (c' :: l) t) :
    List.Forall₂ (crnRel r) (c :: l) t := by
  cases h' with
  | cons hh ht => exact .cons (crnRel_congr h hh) ht

theorem pass3Go_crn (rule : CNote → CNote → CNote → Bool) (fire : CNote → CNote)
    (col : String) (r : Nat)
    (hfire : ∀ n, crnOf (fire n) = some ((crnOf n).getD 0 + r)) :
    ∀ (rest : List CNote) (a b : CNote),
      ∃ x t, (pass3Go rule fire col a b rest).1 = x :: t ∧ crnOf x = crnOf a ∧
        List.Forall₂ (crnRel r) (b :: rest) t := by
  intro rest
  induction rest with
  | nil =>
    intro a b
    exact ⟨a, [b], rfl, rfl, .cons (crnRel_refl r b) .nil⟩
  | cons c rest ih =>
    intro a b
    by_cases h : rule a b c
    · obtain ⟨x, t, hx, hcrn, hrel⟩ := ih (fire b) (setColor col c)
      refine ⟨setColor col a, x :: t, ?_, crnOf_setColor col a, ?_⟩
      · simp [pass3Go, h, hx]
      · refine .cons (Or.inr ?_) (forall₂_crnRel_congr (crnOf_setColor col c) hrel)
        rw [hcrn, hfire b]
    · obtain ⟨x, t, hx, hcrn, hrel⟩ := ih b c
      refine ⟨a, x :: t, ?_, rfl, .cons (Or.inl hcrn) hrel⟩
      simp [pass3Go, h, hx]

theorem pass3_crn (rule : CNote → CNote → CNote → Bool) (fire : CNote → CNote)
    (col : String) (r : Nat)
    (hfire : ∀ n, crnOf (fire n) = some ((crnOf n).getD 0 + r)) :
    ∀ s : List CNote, List.Forall₂ (crnRel r) s (pass3 rule fire col s).1 := by
  intro s
  match s with
  | [] => exact .nil
  | [a] => exact .cons (crnRel_refl r a) .nil
  | a :: b :: rest =>
    obtain ⟨x, t, hx, hcrn, hrel⟩ := pass3Go_crn rule fire col r hfire rest a b
    show List.Forall₂ (crnRel r) (a :: b :: rest) (pass3Go rule fire col a b rest).1
    rw [hx]
    exact .cons (Or.inl hcrn) hrel

theorem pass4Go_crn (rule : CNote → CNote → CNote → CNote → Bool) (fire : CNote → CNote)
    (col : String) (r : Nat)
    (hfire : ∀ n, crnOf (fire n) = some ((crnOf n).getD 0 + r)) :
    ∀ (rest : List CNote) (a b c : CNote),
      ∃ x y t, (pass4Go rule fire col a b c rest).1 = x :: y :: t ∧
        crnOf x = crnOf a ∧ crnOf y = crnOf b ∧
        List.Forall₂ (crnRel r) (c :: rest) t := by
  intro rest
  induction rest with
  | nil =>
    intro a b c
    exact ⟨a, b, [c], rfl, rfl, rfl, .cons (crnRel_refl r c) .nil⟩
  | cons d rest ih =>
    intro a b c
    by_cases h : rule a b c d
    · obtain ⟨x, y, t, hx, hcx, hcy, hrel⟩ := ih (setColor col b) (fire c) (setColor col d)
      refine ⟨setColor col a, x, y :: t, ?_, crnOf_setColor col a, ?_, ?_⟩
      · simp [pass4Go, h, hx]
      · rw [hcx]; exact crnOf_setColor col b
      · refine .cons (Or.inr ?_) (forall₂_crnRel_congr (crnOf_setColor col d) hrel)
        rw [hcy, hfire c]
    · obtain ⟨x, y, t, hx, hcx, hcy, hrel⟩ := ih b c d
      refine ⟨a, x, y :: t, ?_, rfl, hcx, .cons (Or.inl hcy) hrel⟩
      simp [pass4Go, h, hx]

theorem pass4_crn (rule : CNote → CNote → CNote → CNote → Bool) (fire : CNote → CNote)
    (col : String) (r : Nat)
    (hfire : ∀ n, crnOf (fire n) = some ((crnOf n).getD 0 + r)) :
    ∀ s : List CNote, List.Forall₂ (crnRel r) s (pass4 rule fire col s).1 := by
  intro s
  match s with
  | [] => exact .nil
  | [a] => exact .cons (crnRel_refl r a) .nil
  | [a, b] => exact .cons (crnRel_refl r a) (.cons (crnRel_refl r b) .nil)
  | a :: b :: c :: rest =>
    obtain ⟨x, y, t, hx, hcx, hcy, hrel⟩ := pass4Go_crn rule fire col r hfire rest a b c
    show List.Forall₂ (crnRel r) (a :: b :: c :: rest) (pass4Go rule fire col a b c rest).1
    rw [hx]
    exact .cons (Or.inl hcx) (.cons (Or.inl hcy) hrel)

theorem forall₂_mem_right {α β : Type _} {R : α → β → Prop} :
    ∀ {l₁ : List α} {l₂ : List β}, List.Forall₂ R l₁ l₂ →
      ∀ b ∈ l₂, ∃ a ∈ l₁, R a b := by
  intro l₁ l₂ h
  induction h with
  | nil => intro b hb; cases hb
  | cons hr _ ih =>
    intro b hb
    rcases List.mem_cons.mp hb with hb | hb
    · exact ⟨_, List.mem_cons_self _ _, hb ▸ hr⟩
    · obtain ⟨a, ha, har⟩ := ih b hb
      exact ⟨a, List.mem_cons_of_mem _ ha, har⟩

/-! ## C1 -/

/-- C1: for every event with a real accidental `A` and a non-null ficta slot
value, `capuaFictaToAccidental` (resp. `pmfcFictaToAccidental`) followed by
`restoreAccidental` leaves the real pitch accidental exactly `A`. -/
theorem c1_promote_restore_roundtrip (n : CNote) (a : AccName)
    (ha : n.pitch.accidental = some a) :
    (∀ v, n.editorial.capuaFicta = some (some v) →
      (restoreAccidental (capuaFictaToAccidental n)).pitch.accidental = some a) ∧
    (∀ v, n.editorial.pmfcFicta = some (some v) →
      (restoreAccidental (pmfcFictaToAccidental n)).pitch.accidental = some a) := by
  constructor <;> intro v hv <;>
    simp [capuaFictaToAccidental, pmfcFictaToAccidental, hv, clearAccidental, ha,
      restoreAccidental]

/-- Witness for C1: a C#4 with both ficta slots holding a flat; after each
promote/restore cycle the sharp is back. -/
theorem c1_witness :
    (simpleNote Step.C (some AccName.sharp) 4).pitch.accidental = some AccName.sharp ∧
    (restoreAccidental (capuaFictaToAccidental
      { simpleNote Step.C (some AccName.sharp) 4 with
        editorial := { capuaFicta := some (some AccName.flat),
                       pmfcFicta := some (some AccName.flat) } })).pitch.accidental
      = some AccName.sharp ∧
    (restoreAccidental (pmfcFictaToAccidental
      { simpleNote Step.C (some AccName.sharp) 4 with
        editorial := { capuaFicta := some (some AccName.flat),
                       pmfcFicta := some (some AccName.flat) } })).pitch.accidental
      = some AccName.sharp := by
  refine ⟨rfl, ?_, ?_⟩
  · exact (c1_promote_restore_roundtrip _ AccName.sharp rfl).1 AccName.flat rfl
  · exact (c1_promote_restore_roundtrip _ AccName.sharp rfl).2 AccName.flat rfl

/-! ## C3 -/

/-- C3 counterexample: on the stream D4 F4 G4 the default pipeline's fourth
rule (4B) matches the pivot F4, and the provenance value recorded on it is
16, not the claimed `RULE_FOUR = 8`. -/
theorem c3_counterexample :
    ((applyCapuaToStream
        [simpleNote Step.D none 4, simpleNote Step.F none 4, simpleNote Step.G none 4]).getD 1
      (simpleNote Step.C none 4)).editorial.capuaRuleNumber = some 16 ∧
    ¬ ((applyCapuaToStream
        [simpleNote Step.D none 4, simpleNote Step.F none 4, simpleNote Step.G none 4]).getD 1
      (simpleNote Step.C none 4)).editorial.capuaRuleNumber = some 8 := by
  constructor
  · rfl
  · decide

/-- C3 amended: the provenance constants are `RULE_ONE = 1`, `RULE_TWO = 2`,
`RULE_THREE = 4`, `RULE_FOUR_A = 8`, `RULE_FOUR_B = 16`; the default
pipeline's fourth rule is 4B, whose firing action adds `RULE_FOUR_B = 16`
(not 8, which belongs to the excluded variant 4A) to the matched pivot's
mask, and a `capuaRuleFourB` pass changes no other note's mask. -/
theorem c3_rule_four_b_provenance :
    (∀ n : CNote, crnOf (flatAwareFire RULE_FOUR_B "green" "green" n) =
      some ((crnOf n).getD 0 + RULE_FOUR_B)) ∧
    (∀ s : List CNote, List.Forall₂ (crnRel RULE_FOUR_B) s (capuaRuleFourB s).1) ∧
    RULE_ONE = 1 ∧ RULE_TWO = 2 ∧ RULE_THREE = 4 ∧ RULE_FOUR_A = 8 ∧ RULE_FOUR_B = 16 := by
  refine ⟨crnOf_flatAwareFire RULE_FOUR_B "green" "green", ?_, rfl, rfl, rfl, rfl, rfl⟩
  exact pass3_crn _ _ _ RULE_FOUR_B (crnOf_flatAwareFire RULE_FOUR_B "green" "green")

/-! ## C4 -/

/-- C4: the classifier maps a null interval or one without a diatonic
descriptor to undefined; names in the three lists to perfect consonance,
imperfect consonance and dissonance respectively; and any other name to the
unrecognized-interval error. -/
theorem c4_classifier_totality :
    getIntervalType none = Except.ok none ∧
    getIntervalType (some none) = Except.ok none ∧
    (∀ d : DiatonicIv,
      (ivName d ∈ ([(Quality.perf, 1), (Quality.perf, 5), (Quality.perf, 8)] :
          List (Quality × Nat)) →
        getIntervalType (some (some d)) = Except.ok (some "perfect cons")) ∧
      (ivName d ∈ ([(Quality.minor, 3), (Quality.maj, 3), (Quality.minor, 6),
          (Quality.maj, 6)] : List (Quality × Nat)) →
        getIntervalType (some (some d)) = Except.ok (some "imperfect cons")) ∧
      (ivName d ∈ ([(Quality.minor, 2), (Quality.maj, 2), (Quality.aug 1, 2),
          (Quality.dim 1, 3), (Quality.aug 1, 3), (Quality.dim 1, 4), (Quality.perf, 4),
          (Quality.aug 1, 4), (Quality.dim 1, 5), (Quality.aug 1, 5), (Quality.dim 1, 6),
          (Quality.aug 1, 6), (Quality.dim 1, 7), (Quality.minor, 7), (Quality.maj, 7),
          (Quality.aug 1, 7)] : List (Quality × Nat)) →
        getIntervalType (some (some d)) = Except.ok (some "dissonance")) ∧
      (ivName d ∉ PerfectCons → ivName d ∉ ImperfCons → ivName d ∉ Others →
        ∃ e, getIntervalType (some (some d)) = Except.error e)) := by
    refine ⟨rfl, rfl, fun d => ⟨?_, ?_, ?_, ?_⟩⟩
    · intro h
      have hp : ivName d ∈ PerfectCons := h
      simp [getIntervalType, hp]
    · intro h
      have hi : ivName d ∈ ImperfCons := h
      have hp : ivName d ∉ PerfectCons := by
        simp only [ImperfCons, List.mem_cons, List.not_mem_nil, or_false] at hi
        rcases hi with h' | h' | h' | h' <;> simp [PerfectCons, h']
      simp [getIntervalType, hp, hi]
    · intro h
      have ho : ivName d ∈ Others := h
      have hp : ivName d ∉ PerfectCons ∧ ivName d ∉ ImperfCons := by
        simp only [Others, List.mem_cons, List.not_mem_nil, or_false] at ho
        rcases ho with h'|h'|h'|h'|h'|h'|h'|h'|h'|h'|h'|h'|h'|h'|h'|h' <;>
          simp [PerfectCons, ImperfCons, h']
      simp [getIntervalType, hp.1, hp.2, ho]
    · intro h1 h2 h3
      refine ⟨"Wow!  The first interval of this kind I have ever seen in 14th century music!", ?_⟩
      simp [getIntervalType, h1, h2, h3]

/-- Witness for C4: P5 is a perfect consonance, m3 an imperfect one, P4 a
dissonance, and a diminished unison raises the unrecognized-interval error. -/
theorem c4_witness :
    getIntervalType (some (some ⟨Quality.perf, 5⟩)) = Except.ok (some "perfect cons") ∧
    getIntervalType (some (some ⟨Quality.minor, 3⟩)) = Except.ok (some "imperfect cons") ∧
    getIntervalType (some (some ⟨Quality.perf, 4⟩)) = Except.ok (some "dissonance") ∧
    ∃ e, getIntervalType (some (some ⟨Quality.dim 1, 1⟩)) = Except.error e := by
  refine ⟨?_, ?_, ?_, ?_⟩
  · exact ((c4_classifier_totality.2.2 ⟨Quality.perf, 5⟩).1) (by decide)
  · exact ((c4_classifier_totality.2.2 ⟨Quality.minor, 3⟩).2.1) (by decide)
  · exact ((c4_classifier_totality.2.2 ⟨Quality.perf, 4⟩).2.2.1) (by decide)
  · exact ((c4_classifier_totality.2.2 ⟨Quality.dim 1, 1⟩).2.2.2)
      (by decide) (by decide) (by decide)

/-! ## C5 -/

/-- C5: on a window of three consecutive non-rest notes with directed
intervals `M-2` then `M2`, accidental-free outer notes and a pivot step other
than A and D, `capuaRuleOne` counts exactly one match and proposes sharp on
the pivot (natural, clearing the flat, if the pivot was flat). -/
theorem c5_rule_one_fires (n1 n2 n3 : CNote)
    (h1 : n1.isRest = false) (h2 : n2.isRest = false) (h3 : n3.isRest = false)
    (ha1 : n1.pitch.accidental = none) (ha3 : n3.pitch.accidental = none)
    (hsA : ¬ n2.pitch.step = Step.A) (hsD : ¬ n2.pitch.step = Step.D)
    (hi1 : directedName (notesToInterval n1 n2) = (Quality.maj, -2))
    (hi2 : directedName (notesToInterval n2 n3) = (Quality.maj, 2)) :
    (capuaRuleOne [n1, n2, n3]).2 = 1 ∧
    ((capuaRuleOne [n1, n2, n3]).1.getD 1 n2).editorial.ficta =
      some (some (if n2.pitch.accidental = some AccName.flat
        then AccName.natural else AccName.sharp)) ∧
    ((capuaRuleOne [n1, n2, n3]).1.getD 1 n2).editorial.capuaFicta =
      some (some (if n2.pitch.accidental = some AccName.flat
        then AccName.natural else AccName.sharp)) ∧
    ((capuaRuleOne [n1, n2, n3]).1.getD 1 n2).pitch.accidental =
      (if n2.pitch.accidental = some AccName.flat then none else n2.pitch.accidental) := by
  have hm : rule1Match n1 n2 n3 = true := by
    simp [rule1Match, h1, h2, h3, ha1, ha3, hsA, hsD, hi1, hi2]
  by_cases hf : n2.pitch.accidental = some AccName.flat <;>
    simp [capuaRuleOne, pass3, pass3Go, hm, flatAwareFire, addRuleNumber, hf, setColor]

/-- Witness for C5 at the concrete window G4 F4 G4: one match, sharp proposed
on the F. -/
theorem c5_witness :
    (capuaRuleOne [simpleNote Step.G none 4, simpleNote Step.F none 4,
      simpleNote Step.G none 4]).2 = 1 ∧
    ((capuaRuleOne [simpleNote Step.G none 4, simpleNote Step.F none 4,
      simpleNote Step.G none 4]).1.getD 1 (simpleNote Step.F none 4)).editorial.ficta =
      some (some AccName.sharp) ∧
    ((capuaRuleOne [simpleNote Step.G none 4, simpleNote Step.F none 4,
      simpleNote Step.G none 4]).1.getD 1 (simpleNote Step.F none 4)).pitch.accidental =
      none := by
  have h := c5_rule_one_fires (simpleNote Step.G none 4) (simpleNote Step.F none 4)
    (simpleNote Step.G none 4) rfl rfl rfl rfl rfl (by decide) (by decide)
    (by decide) (by decide)
  refine ⟨h.1, ?_, ?_⟩
  · simpa using h.2.1
  · simpa using h.2.2.2

/-! ## C6 -/

/-- C6: `compareNoteCapuaToEditor` returns the zero tally on a rest; on a note
it counts the note and increments the alteration categories exactly according
to which of the `pmfcFicta` / `capuaFicta` slots are set. -/
theorem c6_compare_note_cases (n : CNote) :
    (n.isRest = true → compareNoteCapuaToEditor n = {}) ∧
    (n.isRest = false → n.editorial.pmfcFicta.isSome → n.editorial.capuaFicta.isSome →
      compareNoteCapuaToEditor n =
        { totalNotes := 1, pmfcAlt := 1, capuaAlt := 1, pmfcAndCapua := 1 }) ∧
    (n.isRest = false → n.editorial.pmfcFicta.isSome → n.editorial.capuaFicta = none →
      compareNoteCapuaToEditor n = { totalNotes := 1, pmfcAlt := 1, pmfcNotCapua := 1 }) ∧
    (n.isRest = false → n.editorial.pmfcFicta = none → n.editorial.capuaFicta.isSome →
      compareNoteCapuaToEditor n = { totalNotes := 1, capuaAlt := 1, capuaNotPmfc := 1 }) ∧
    (n.isRest = false → n.editorial.pmfcFicta = none → n.editorial.capuaFicta = none →
      compareNoteCapuaToEditor n = { totalNotes := 1 }) := by
  refine ⟨?_, ?_, ?_, ?_, ?_⟩
  · intro hr; simp [compareNoteCapuaToEditor, hr]
  · intro hr hp hc; simp [compareNoteCapuaToEditor, hr, hp, hc]
  · intro hr hp hc; simp [compareNoteCapuaToEditor, hr, hp, hc]
  · intro hr hp hc; simp [compareNoteCapuaToEditor, hr, hp, hc]
  · intro hr hp hc; simp [compareNoteCapuaToEditor, hr, hp, hc]

/-- Witness for C6: a rest gives the zero vector; a note with both slots set
gives the scenario vector of the spec. -/
theorem c6_witness :
    compareNoteCapuaToEditor { simpleNote Step.C none 4 with isRest := true } = {} ∧
    compareNoteCapuaToEditor
      { simpleNote Step.C none 4 with
        editorial := { pmfcFicta := some (some AccName.sharp),
                       capuaFicta := some (some AccName.sharp) } } =
      { totalNotes := 1, pmfcAlt := 1, capuaAlt := 1, pmfcAndCapua := 1 } := by
  constructor
  · exact (c6_compare_note_cases _).1 rfl
  · exact (c6_compare_note_cases _).2.1 rfl rfl rfl

/-! ## C7 -/

theorem tallyAdd_zero (t : Tally) : tallyAdd t {} = t := by
  cases t; rfl

theorem zero_tallyAdd (t : Tally) : tallyAdd {} t = t := by
  cases t; simp [tallyAdd]

theorem tallyAdd_assoc (t u v : Tally) :
    tallyAdd (tallyAdd t u) v = tallyAdd t (tallyAdd u v) := by
  cases t; cases u; cases v; simp [tallyAdd, Nat.add_assoc]

theorem foldl_tallyAdd (s : List CNote) (t : Tally) :
    s.foldl (fun acc n => tallyAdd acc (compareNoteCapuaToEditor n)) t =
      tallyAdd t (compareSrcStreamCapuaToEditor s) := by
  induction s generalizing t with
  | nil => simp [compareSrcStreamCapuaToEditor, tallyAdd_zero]
  | cons a s ih =>
    show List.foldl _ (tallyAdd t (compareNoteCapuaToEditor a)) s = _
    rw [ih]
    have : compareSrcStreamCapuaToEditor (a :: s) =
        tallyAdd (compareNoteCapuaToEditor a) (compareSrcStreamCapuaToEditor s) := by
      show List.foldl _ (tallyAdd {} (compareNoteCapuaToEditor a)) s = _
      rw [ih, zero_tallyAdd]
    rw [this, tallyAdd_assoc]

/-- C7: the stream tally of a concatenation is the componentwise sum of the
two streams' tallies. -/
theorem c7_tally_additivity (A B : List CNote) :
    compareSrcStreamCapuaToEditor (A ++ B) =
      tallyAdd (compareSrcStreamCapuaToEditor A) (compareSrcStreamCapuaToEditor B) := by
  rw [show compareSrcStreamCapuaToEditor (A ++ B) =
    List.foldl (fun acc n => tallyAdd acc (compareNoteCapuaToEditor n)) {} (A ++ B) from rfl]
  rw [List.foldl_append]
  exact foldl_tallyAdd B (compareSrcStreamCapuaToEditor A)

/-! ## C8 -/

/-- Keep a snippet entry unless it is a present snippet with fewer than two
voice parts (the snippets the claim asserts are skipped). -/
def keepSnippet : Option Snippet → Bool
  | none => true
  | some s => !(s.parts.length < 2)

/-- A corpus with the pieces whose incipit is unset removed, and within each
remaining piece the snippets with fewer than two voice parts removed. -/
def cleanCorpus (corpus : List Piece) : List Piece :=
  (corpus.filter (fun p => p.incipit.isSome)).map
    (fun p => { p with snippets := p.snippets.filter keepSnippet })

theorem foldl_filter_skip {α β : Type _} (f : β → α → β) (p : α → Bool)
    (h : ∀ b a, p a = false → f b a = b) :
    ∀ (l : List α) (b : β), l.foldl f b = (l.filter p).foldl f b := by
  intro l
  induction l with
  | nil => intro b; rfl
  | cons a l ih =>
    intro b
    by_cases hp : p a
    · rw [List.filter_cons_of_pos hp]
      exact ih (f b a)
    · rw [List.filter_cons_of_neg (by simpa using hp), List.foldl_cons,
        h b a (by simpa using hp)]
      exact ih b

theorem fcSnippetStep_skip (isMaj3 : Bool) (nc : Nat) (target : Quality × Nat)
    (st : TallyC × List Snippet) (os : Option Snippet) (h : keepSnippet os = false) :
    fcSnippetStep isMaj3 nc target st os = st := by
  match os with
  | none => rfl
  | some s =>
    have hlen : s.parts.length < 2 := by
      by_contra hc
      simp [keepSnippet, hc] at h
    by_cases hi : s.isIncipit <;> simp [fcSnippetStep, hi, hlen]

theorem ihSnippetStep_skip (cd : CheckDict) (os : Option Snippet)
    (h : keepSnippet os = false) : ihSnippetStep cd os = cd := by
  match os with
  | none => rfl
  | some s =>
    have hlen : s.parts.length < 2 := by
      by_contra hc
      simp [keepSnippet, hc] at h
    by_cases hi : s.isIncipit <;> simp [ihSnippetStep, hi, hlen]

theorem fcPieceStep_clean (isMaj3 : Bool) (nc : Nat) (target : Quality × Nat)
    (st : TallyC × List Snippet) (p : Piece) :
    fcPieceStep isMaj3 nc target st p =
      fcPieceStep isMaj3 nc target st { p with snippets := p.snippets.filter keepSnippet } := by
  match hp : p.incipit with
  | none => simp [fcPieceStep, hp]
  | some s =>
    simp only [fcPieceStep, hp]
    exact foldl_filter_skip _ keepSnippet (fcSnippetStep_skip isMaj3 nc target) p.snippets st

theorem ihPieceStep_clean (cd : CheckDict) (p : Piece) :
    ihPieceStep cd p =
      ihPieceStep cd { p with snippets := p.snippets.filter keepSnippet } := by
  match hp : p.incipit with
  | none => simp [ihPieceStep, hp]
  | some s =>
    simp only [ihPieceStep, hp]
    exact foldl_filter_skip _ keepSnippet ihSnippetStep_skip p.snippets cd

theorem foldl_ext {α β : Type _} {f g : β → α → β} (h : ∀ b a, f b a = g b a) :
    ∀ (l : List α) (b : β), l.foldl f b = l.foldl g b := by
  intro l
  induction l with
  | nil => intro b; rfl
  | cons a l ih => intro b; rw [List.foldl_cons, List.foldl_cons, h b a]; exact ih _

theorem fcFold_clean (isMaj3 : Bool) (nc : Nat) (target : Quality × Nat)
    (corpus : List Piece) (st : TallyC × List Snippet) :
    corpus.foldl (fcPieceStep isMaj3 nc target) st =
      (cleanCorpus corpus).foldl (fcPieceStep isMaj3 nc target) st := by
  unfold cleanCorpus
  rw [List.foldl_map]
  rw [foldl_filter_skip (fcPieceStep isMaj3 nc target) (fun p => p.incipit.isSome)
    (fun st p hp => by
      match hn : p.incipit with
      | none => simp [fcPieceStep, hn]
      | some s => simp [hn] at hp) corpus st]
  exact foldl_ext (fun st' p => fcPieceStep_clean isMaj3 nc target st' p) _ st

theorem ihFold_clean (corpus : List Piece) (cd : CheckDict) :
    corpus.foldl ihPieceStep cd = (cleanCorpus corpus).foldl ihPieceStep cd := by
  unfold cleanCorpus
  rw [List.foldl_map]
  rw [foldl_filter_skip ihPieceStep (fun p => p.incipit.isSome)
    (fun cd' p hp => by
      match hn : p.incipit with
      | none => simp [ihPieceStep, hn]
      | some s => simp [hn] at hp) corpus cd]
  exact foldl_ext (fun cd' p => ihPieceStep_clean cd' p) _ cd

/-- C8: in both corpus drivers, pieces with an unset incipit and snippets with
fewer than two voice parts are skipped: they contribute zero to every tally
category (the result equals the result on the corpus with them removed,
iteration continuing over the rest), and for the two supported correction
types `findCorrections` never raises. -/
theorem c8_defensive_skipping (corpus : List Piece) :
    findCorrections "Maj3" corpus = findCorrections "Maj3" (cleanCorpus corpus) ∧
    findCorrections "min6" corpus = findCorrections "min6" (cleanCorpus corpus) ∧
    (∃ r, findCorrections "Maj3" corpus = Except.ok r) ∧
    (∃ r, findCorrections "min6" corpus = Except.ok r) ∧
    improvedHarmony corpus = improvedHarmony (cleanCorpus corpus) := by
  refine ⟨?_, ?_, ⟨_, rfl⟩, ⟨_, rfl⟩, ?_⟩
  · show Except.ok (corpus.foldl (fcPieceStep true 1 (Quality.minor, 3)) ({}, [])) =
      Except.ok ((cleanCorpus corpus).foldl (fcPieceStep true 1 (Quality.minor, 3)) ({}, []))
    exact congrArg _ (fcFold_clean true 1 (Quality.minor, 3) corpus ({}, []))
  · show Except.ok (corpus.foldl (fcPieceStep false 2 (Quality.maj, 6)) ({}, [])) =
      Except.ok ((cleanCorpus corpus).foldl (fcPieceStep false 2 (Quality.maj, 6)) ({}, []))
    exact congrArg _ (fcFold_clean false 2 (Quality.maj, 6) corpus ({}, []))
  · unfold improvedHarmony
    rw [ihFold_clean]

/-! ## C9 -/

/-- A two-voice snippet whose voices are a single C4 against a single C4: the
harmonic interval is P1 everywhere, so the correction search finds no
qualifying note (no `potentialChange`, no `capuaNotPmfc`). -/
def c9Snippet : Snippet :=
  { isIncipit := false,
    parts := [[simpleNote Step.C none 4], [simpleNote Step.C none 4]] }

/-- A one-piece corpus holding only `c9Snippet`, with an incipit present. -/
def c9Piece : Piece := { incipit := some {}, snippets := [some c9Snippet] }

/-- C9, evaluation at the failing input: on a corpus whose only snippet
contains no qualifying note at all (the tally, including `potentialChange`
and `capuaNotPmfc`, is identically zero), `findCorrections` nevertheless
returns an output collection containing that snippet — the insert at line 875
of `capua.py` is unconditional, so the collection is not filtered by the
"contains an interesting change" test. -/
theorem c9_unfiltered_collection :
    findCorrections "Maj3" [c9Piece] = Except.ok (({} : TallyC), [c9Snippet]) := by
  rfl

/-! ## C10 -/

/-- Sum of the provenance constants of the four default-pipeline rules over a
chosen subset. -/
def ruleMask (b1 b2 b3 b4 : Bool) : Nat :=
  (cond b1 RULE_ONE 0) + (cond b2 RULE_TWO 0) + (cond b3 RULE_THREE 0) +
    (cond b4 RULE_FOUR_B 0)

/-- The same subset combined with bitwise or instead of `+`. -/
def ruleMaskOr (b1 b2 b3 b4 : Bool) : Nat :=
  (cond b1 RULE_ONE 0) ||| (cond b2 RULE_TWO 0) ||| (cond b3 RULE_THREE 0) |||
    (cond b4 RULE_FOUR_B 0)

/-- The `capuaRuleNumber` slot after a subset of the four rules has fired:
absent when no rule fired, otherwise the mask of the rules that fired. -/
def maskOpt (b1 b2 b3 b4 : Bool) : Option Nat :=
  if b1 || b2 || b3 || b4 then some (ruleMask b1 b2 b3 b4) else none

theorem maskOpt_getD (b1 b2 b3 b4 : Bool) :
    (maskOpt b1 b2 b3 b4).getD 0 = ruleMask b1 b2 b3 b4 := by
  cases b1 <;> cases b2 <;> cases b3 <;> cases b4 <;> rfl

theorem crnStep1 {m n : CNote} (h : crnRel RULE_ONE m n) (hm : crnOf m = none) :
    ∃ b1, crnOf n = maskOpt b1 false false false := by
  rcases h with h | h
  · exact ⟨false, by rw [h, hm]; rfl⟩
  · exact ⟨true, by rw [h, hm]; rfl⟩

theorem crnStep2 {m n : CNote} (h : crnRel RULE_TWO m n) (b1 : Bool)
    (hm : crnOf m = maskOpt b1 false false false) :
    ∃ b2, crnOf n = maskOpt b1 b2 false false := by
  rcases h with h | h
  · exact ⟨false, by rw [h, hm]⟩
  · refine ⟨true, ?_⟩
    rw [h, hm, maskOpt_getD]
    cases b1 <;> rfl

theorem crnStep3 {m n : CNote} (h : crnRel RULE_THREE m n) (b1 b2 : Bool)
    (hm : crnOf m = maskOpt b1 b2 false false) :
    ∃ b3, crnOf n = maskOpt b1 b2 b3 false := by
  rcases h with h | h
  · exact ⟨false, by rw [h, hm]⟩
  · refine ⟨true, ?_⟩
    rw [h, hm, maskOpt_getD]
    cases b1 <;> cases b2 <;> rfl

theorem crnStep4 {m n : CNote} (h : crnRel RULE_FOUR_B m n) (b1 b2 b3 : Bool)
    (hm : crnOf m = maskOpt b1 b2 b3 false) :
    ∃ b4, crnOf n = maskOpt b1 b2 b3 b4 := by
  rcases h with h | h
  · exact ⟨false, by rw [h, hm]⟩
  · refine ⟨true, ?_⟩
    rw [h, hm, maskOpt_getD]
    cases b1 <;> cases b2 <;> cases b3 <;> rfl

theorem crnOf_clearAccidental (n : CNote) : crnOf (clearAccidental n) = crnOf n := by
  unfold clearAccidental
  split <;> rfl

theorem crnOf_pmfcSaveNote (n : CNote) : crnOf (pmfcSaveNote n) = crnOf n := by
  unfold pmfcSaveNote
  by_cases hr : n.isRest
  · simp [hr]
  · rcases hf : n.editorial.ficta with _ | v
    · simp [hr, hf]
    · simp only [hr, hf, Bool.false_eq_true, if_false]
      rw [crnOf_clearAccidental]
      rfl

theorem crnOf_clearFictaNote (n : CNote) : crnOf (clearFictaNote n) = crnOf n := by
  unfold clearFictaNote
  by_cases hr : n.isRest
  · simp [hr]
  · rcases hf : n.editorial.ficta with _ | v <;> simp [hr, hf, crnOf]

/-- C10: starting from a stream with no pre-existing `capuaRuleNumber`
annotations, every note's final mask after `applyCapuaToStream` is either
absent or the sum of the constants of a subset of the rules that fired, each
rule contributing at most once; this sum coincides with the bitwise or of the
constants, and it decodes the subset uniquely. -/
theorem c10_provenance_mask (s : List CNote)
    (h : ∀ n ∈ s, n.editorial.capuaRuleNumber = none) :
    (∀ n ∈ applyCapuaToStream s, ∃ b1 b2 b3 b4 : Bool,
      n.editorial.capuaRuleNumber = maskOpt b1 b2 b3 b4) ∧
    (∀ b1 b2 b3 b4 : Bool, ruleMask b1 b2 b3 b4 = ruleMaskOr b1 b2 b3 b4) ∧
    (∀ b1 b2 b3 b4 c1 c2 c3 c4 : Bool,
      ruleMask b1 b2 b3 b4 = ruleMask c1 c2 c3 c4 →
      (b1, b2, b3, b4) = (c1, c2, c3, c4)) := by
  refine ⟨?_, by decide, by decide⟩
  intro n hn
  have h0 : ∀ m ∈ clearFicta (s.map pmfcSaveNote), crnOf m = none := by
    intro m hm
    rcases List.mem_map.mp hm with ⟨m1, hm1, rfl⟩
    rcases List.mem_map.mp hm1 with ⟨m0, hm0, rfl⟩
    rw [crnOf_clearFictaNote, crnOf_pmfcSaveNote]
    exact h m0 hm0
  have r1 := pass3_crn rule1Match (flatAwareFire RULE_ONE "forestGreen" "ForestGreen")
    "blue" RULE_ONE (crnOf_flatAwareFire RULE_ONE "forestGreen" "ForestGreen")
    (clearFicta (s.map pmfcSaveNote))
  have r2 := pass4_crn rule2Match (flatAwareFire RULE_TWO "ForestGreen" "ForestGreen")
    "purple" RULE_TWO (crnOf_flatAwareFire RULE_TWO "ForestGreen" "ForestGreen")
    (capuaRuleOne (clearFicta (s.map pmfcSaveNote))).1
  have r3 := pass3_crn rule3Match rule3Fire "DeepPink" RULE_THREE crnOf_rule3Fire
    (capuaRuleTwo (capuaRuleOne (clearFicta (s.map pmfcSaveNote))).1).1
  have r4 := pass3_crn rule4BMatch (flatAwareFire RULE_FOUR_B "green" "green")
    "orange" RULE_FOUR_B (crnOf_flatAwareFire RULE_FOUR_B "green" "green")
    (capuaRuleThree (capuaRuleTwo (capuaRuleOne
      (clearFicta (s.map pmfcSaveNote))).1).1).1
  obtain ⟨m3, hm3, rel4⟩ := forall₂_mem_right r4 n hn
  obtain ⟨m2, hm2, rel3⟩ := forall₂_mem_right r3 m3 hm3
  obtain ⟨m1, hm1, rel2⟩ := forall₂_mem_right r2 m2 hm2
  obtain ⟨m0, hm0, rel1⟩ := forall₂_mem_right r1 m1 hm1
  obtain ⟨b1, e1⟩ := crnStep1 rel1 (h0 m0 hm0)
  obtain ⟨b2, e2⟩ := crnStep2 rel2 b1 e1
  obtain ⟨b3, e3⟩ := crnStep3 rel3 b1 b2 e2
  obtain ⟨b4, e4⟩ := crnStep4 rel4 b1 b2 b3 e3
  exact ⟨b1, b2, b3, b4, e4⟩

/-- Witness for C10 at the concrete fresh stream G4 F4 G4. -/
theorem c10_witness :
    (∀ n ∈ [simpleNote Step.G none 4, simpleNote Step.F none 4, simpleNote Step.G none 4],
      n.editorial.capuaRuleNumber = none) ∧
    ((∀ n ∈ applyCapuaToStream
        [simpleNote Step.G none 4, simpleNote Step.F none 4, simpleNote Step.G none 4],
      ∃ b1 b2 b3 b4 : Bool, n.editorial.capuaRuleNumber = maskOpt b1 b2 b3 b4) ∧
    (∀ b1 b2 b3 b4 : Bool, ruleMask b1 b2 b3 b4 = ruleMaskOr b1 b2 b3 b4) ∧
    (∀ b1 b2 b3 b4 c1 c2 c3 c4 : Bool,
      ruleMask b1 b2 b3 b4 = ruleMask c1 c2 c3 c4 →
      (b1, b2, b3, b4) = (c1, c2, c3, c4))) :=
  ⟨by decide, c10_provenance_mask _ (by decide)⟩

/-! ## C2: rule ordering independence — machinery

Rule matching reads only `isRest` and the pitch; the only pitch mutation any
pass performs is clearing the flat of a matched pivot.  The development below
relates the stream an earlier pass produces to the untouched stream by an
inductive relation whose "cleared" entries carry the melodic context in which
a flat pivot can be cleared, and shows that no window containing a cleared
entry can match any later rule on either stream. -/

/-- Pitch-observation equality: the fields rule matching reads. -/
def obsEqv (y x : CNote) : Prop := x.isRest = y.isRest ∧ x.pitch = y.pitch

/-- A non-rest, accidental-free note. -/
def noAcc (n : CNote) : Prop := n.isRest = false ∧ n.pitch.accidental = none

/-- `b` lies one staff step above `a`, `k` semitones up. -/
def upStep (a b : CNote) (k : Int) : Prop :=
  staffPos b.pitch = staffPos a.pitch + 1 ∧ psPos b.pitch = psPos a.pitch + k

theorem obsEqv_refl (n : CNote) : obsEqv n n := ⟨rfl, rfl⟩

theorem obsEqv_setColor (c : String) (n : CNote) : obsEqv n (setColor c n) := ⟨rfl, rfl⟩

/-- The natural (accidental-stripped) semitone gap between adjacent staff
steps is 1 or 2. -/
theorem natPs_gap (p q : Pitch) (h : staffPos q = staffPos p + 1) :
    psPos q - alterOf q.accidental - (psPos p - alterOf p.accidental) = 1 ∨
    psPos q - alterOf q.accidental - (psPos p - alterOf p.accidental) = 2 := by
  cases hp : p.step <;> cases hq : q.step <;>
    simp only [staffPos, psPos, stepIdx, stepSemis, hp, hq] at h ⊢ <;> omega

theorem qualityOf_eq_maj (pb : Bool) (d : Int) :
    qualityOf pb d = Quality.maj ↔ pb = false ∧ d = 0 := by
  unfold qualityOf
  cases pb <;> split_ifs <;> simp_all <;> omega

theorem qualityOf_eq_minor (pb : Bool) (d : Int) :
    qualityOf pb d = Quality.minor ↔ pb = false ∧ d = -1 := by
  unfold qualityOf
  cases pb <;> split_ifs <;> simp_all <;> omega

/-- Generic-number analysis: the signed generic of `notesToIntervalP`
determines the staff distance for the numbers the rules compare against. -/
theorem gdAnalysis (sd g : Int) (hg : 2 ≤ g ∨ g ≤ -2)
    (h : (if 0 < sd then sd + 1 else if sd < 0 then sd - 1 else 1) = g) :
    (0 < sd ∧ g = sd + 1) ∨ (sd < 0 ∧ g = sd - 1) := by
  split_ifs at h <;> omega

theorem dirName_M2up {m n : Pitch}
    (h : directedName (notesToIntervalP m n) = (Quality.maj, 2)) :
    staffPos n = staffPos m + 1 ∧
      (psPos n = psPos m + 2 ∨ psPos n = psPos m - 2) := by
  simp only [directedName, notesToIntervalP, Prod.mk.injEq] at h
  obtain ⟨hq, hg⟩ := h
  have hsd : staffPos n - staffPos m = 1 := by
    rcases gdAnalysis _ _ (Or.inl (by omega)) hg with ⟨h1, h2⟩ | ⟨h1, h2⟩ <;> omega
  rw [hsd] at hq
  norm_num [perfectableN, majSemis, simpleMajSemis, qualityOf_eq_maj] at hq
  have h2 : psPos n - psPos m = 2 ∨ psPos n - psPos m = -2 := by
    rcases (abs_eq (show (0:Int) ≤ 2 by norm_num)).mp
        (by linarith : |psPos n - psPos m| = 2) with h | h
    · exact Or.inl h
    · exact Or.inr h
  exact ⟨by omega, by omega⟩

theorem dirName_m2up {m n : Pitch}
    (h : directedName (notesToIntervalP m n) = (Quality.minor, 2)) :
    staffPos n = staffPos m + 1 ∧
      (psPos n = psPos m + 1 ∨ psPos n = psPos m - 1) := by
  simp only [directedName, notesToIntervalP, Prod.mk.injEq] at h
  obtain ⟨hq, hg⟩ := h
  have hsd : staffPos n - staffPos m = 1 := by
    rcases gdAnalysis _ _ (Or.inl (by omega)) hg with ⟨h1, h2⟩ | ⟨h1, h2⟩ <;> omega
  rw [hsd] at hq
  norm_num [perfectableN, majSemis, simpleMajSemis, qualityOf_eq_minor] at hq
  have h2 : psPos n - psPos m = 1 ∨ psPos n - psPos m = -1 := by
    rcases (abs_eq (show (0:Int) ≤ 1 by norm_num)).mp
        (by linarith : |psPos n - psPos m| = 1) with h | h
    · exact Or.inl h
    · exact Or.inr h
  exact ⟨by omega, by omega⟩

theorem dirName_M2dn {m n : Pitch}
    (h : directedName (notesToIntervalP m n) = (Quality.maj, -2)) :
    staffPos n = staffPos m - 1 ∧
      (psPos n = psPos m + 2 ∨ psPos n = psPos m - 2) := by
  simp only [directedName, notesToIntervalP, Prod.mk.injEq] at h
  obtain ⟨hq, hg⟩ := h
  have hsd : staffPos n - staffPos m = -1 := by
    rcases gdAnalysis _ _ (Or.inr (by omega)) hg with ⟨h1, h2⟩ | ⟨h1, h2⟩ <;> omega
  rw [hsd] at hq
  norm_num [perfectableN, majSemis, simpleMajSemis, qualityOf_eq_maj] at hq
  have h2 : psPos n - psPos m = 2 ∨ psPos n - psPos m = -2 := by
    rcases (abs_eq (show (0:Int) ≤ 2 by norm_num)).mp
        (by linarith : |psPos n - psPos m| = 2) with h | h
    · exact Or.inl h
    · exact Or.inr h
  exact ⟨by omega, by omega⟩

theorem dirName_M3dn {m n : Pitch}
    (h : directedName (notesToIntervalP m n) = (Quality.maj, -3)) :
    staffPos n = staffPos m - 2 := by
  simp only [directedName, notesToIntervalP, Prod.mk.injEq] at h
  obtain ⟨hq, hg⟩ := h
  rcases gdAnalysis _ _ (Or.inr (by omega)) hg with ⟨h1, h2⟩ | ⟨h1, h2⟩ <;> omega

theorem dirName_m3up {m n : Pitch}
    (h : directedName (notesToIntervalP m n) = (Quality.minor, 3)) :
    staffPos n = staffPos m + 2 ∧
      (psPos n = psPos m + 3 ∨ psPos n = psPos m - 3) := by
  simp only [directedName, notesToIntervalP, Prod.mk.injEq] at h
  obtain ⟨hq, hg⟩ := h
  have hsd : staffPos n - staffPos m = 2 := by
    rcases gdAnalysis _ _ (Or.inl (by omega)) hg with ⟨h1, h2⟩ | ⟨h1, h2⟩ <;> omega
  rw [hsd] at hq
  norm_num [perfectableN, majSemis, simpleMajSemis, qualityOf_eq_minor] at hq
  have h2 : psPos n - psPos m = 3 ∨ psPos n - psPos m = -3 := by
    rcases (abs_eq (show (0:Int) ≤ 3 by norm_num)).mp
        (by linarith : |psPos n - psPos m| = 3) with h | h
    · exact Or.inl h
    · exact Or.inr h
  exact ⟨by omega, by omega⟩

/-- The pitch observation left after clearing a flat: same step and octave,
no accidental, still a note. -/
def clearedPitch (y x : CNote) : Prop :=
  x.isRest = false ∧ x.pitch.step = y.pitch.step ∧ x.pitch.octave = y.pitch.octave ∧
    x.pitch.accidental = none

/-- The context in which rule 1 clears a flat pivot: the pivot is a non-rest
flat whose step is neither A nor D, and its predecessor `l` is accidental-free
a whole tone above it. -/
def clCtx1 (l y : CNote) : Prop :=
  y.isRest = false ∧ y.pitch.accidental = some AccName.flat ∧
    ¬ y.pitch.step = Step.A ∧ ¬ y.pitch.step = Step.D ∧ noAcc l ∧ upStep y l 2

/-- The context in which rule 2 clears a flat pivot: additionally the
predecessor `p1` is accidental-free a diatonic semitone below the pivot and
`p2` is accidental-free a whole tone below `p1`. -/
def clCtx2 (p2 p1 y : CNote) : Prop :=
  y.isRest = false ∧ y.pitch.accidental = some AccName.flat ∧
    ¬ y.pitch.step = Step.A ∧ ¬ y.pitch.step = Step.D ∧
    noAcc p1 ∧ upStep p1 y 1 ∧ noAcc p2 ∧ upStep p2 p1 2

/-- Both clearing contexts demand an accidental-free successor a whole tone
above the pivot. -/
def nextWt (y : CNote) : List CNote → Prop
  | r :: _ => noAcc r ∧ upStep y r 2
  | [] => False

/-- `LR t2 p2 p1 ys xs`: stream `xs` agrees with stream `ys` except that some
flat pivots of `ys` that sit in a rule-1 clearing context (or, when `t2` is
true, also a rule-2 clearing context) have been cleared.  `p2`, `p1` are the
`ys`-side values of the two elements preceding the related suffixes. -/
inductive LR : Bool → CNote → CNote → List CNote → List CNote → Prop
  | nil (t2 : Bool) (p2 p1 : CNote) : LR t2 p2 p1 [] []
  | eq {t2 : Bool} {p2 p1 y x : CNote} {ys xs : List CNote} :
      obsEqv y x → LR t2 p1 y ys xs → LR t2 p2 p1 (y :: ys) (x :: xs)
  | cl1 {t2 : Bool} {p2 p1 y x : CNote} {ys xs : List CNote} :
      clCtx1 p1 y → nextWt y ys → clearedPitch y x →
      LR t2 p1 y ys xs → LR t2 p2 p1 (y :: ys) (x :: xs)
  | cl2 {p2 p1 y x : CNote} {ys xs : List CNote} :
      clCtx2 p2 p1 y → nextWt y ys → clearedPitch y x →
      LR true p1 y ys xs → LR true p2 p1 (y :: ys) (x :: xs)

theorem noAcc_congr {p p' : CNote} (h1 : p'.isRest = p.isRest) (h2 : p'.pitch = p.pitch)
    (h : noAcc p) : noAcc p' := by
  unfold noAcc at h ⊢
  rw [h1, h2]
  exact h

theorem upStep_congr_left {a a' b : CNote} (h2 : a'.pitch = a.pitch) {k : Int}
    (h : upStep a b k) : upStep a' b k := by
  unfold upStep at h ⊢
  rw [h2]
  exact h

theorem upStep_congr_right {a b b' : CNote} (h2 : b'.pitch = b.pitch) {k : Int}
    (h : upStep a b k) : upStep a b' k := by
  unfold upStep at h ⊢
  rw [h2]
  exact h

theorem clCtx1_congr {l l' y : CNote} (h1 : l'.isRest = l.isRest) (h2 : l'.pitch = l.pitch)
    (h : clCtx1 l y) : clCtx1 l' y :=
  ⟨h.1, h.2.1, h.2.2.1, h.2.2.2.1, noAcc_congr h1 h2 h.2.2.2.2.1,
    upStep_congr_right h2 h.2.2.2.2.2⟩

theorem clCtx2_congr {p2 p2' p1 p1' y : CNote}
    (ha : p1'.isRest = p1.isRest) (hb : p1'.pitch = p1.pitch)
    (hc : p2'.isRest = p2.isRest) (hd : p2'.pitch = p2.pitch)
    (h : clCtx2 p2 p1 y) : clCtx2 p2' p1' y :=
  ⟨h.1, h.2.1, h.2.2.1, h.2.2.2.1, noAcc_congr ha hb h.2.2.2.2.1,
    upStep_congr_left hb h.2.2.2.2.2.1, noAcc_congr hc hd h.2.2.2.2.2.2.1,
    upStep_congr_right hb (upStep_congr_left hd h.2.2.2.2.2.2.2)⟩

/-- The prefix parameters of `LR` may be replaced by observation-equal
notes. -/
theorem LR_params {t2 : Bool} {p2 p1 p2' p1' : CNote} {ys xs : List CNote}
    (h : LR t2 p2 p1 ys xs)
    (h1r : p1'.isRest = p1.isRest) (h1p : p1'.pitch = p1.pitch)
    (h2r : p2'.isRest = p2.isRest) (h2p : p2'.pitch = p2.pitch) :
    LR t2 p2' p1' ys xs := by
  induction h generalizing p2' p1' with
  | nil => exact .nil ..
  | eq hobs htail ih => exact .eq hobs (ih rfl rfl h1r h1p)
  | cl1 hctx hnext hcl htail ih =>
    exact .cl1 (clCtx1_congr h1r h1p hctx) hnext hcl (ih rfl rfl h1r h1p)
  | cl2 hctx hnext hcl htail ih =>
    exact .cl2 (clCtx2_congr h1r h1p h2r h2p hctx) hnext hcl (ih rfl rfl h1r h1p)

/-- When the old `p2` parameter was a flat note, it may be replaced by
anything (a rule-2 clearing context would need it accidental-free). -/
theorem LR_params_flat {t2 : Bool} {p2 p1 p2' : CNote} {ys xs : List CNote}
    (h : LR t2 p2 p1 ys xs) (hf : p2.pitch.accidental = some AccName.flat) :
    LR t2 p2' p1 ys xs := by
  cases h with
  | nil => exact .nil ..
  | eq hobs htail => exact .eq hobs htail
  | cl1 hctx hnext hcl htail => exact .cl1 hctx hnext hcl htail
  | cl2 hctx hnext hcl htail =>
    exact absurd hctx.2.2.2.2.2.2.1.2 (by rw [hf]; intro hc; cases hc)

/-- `LR` is reflexive over observation-equal lists. -/
theorem LR_of_obsEqv {t2 : Bool} : ∀ {ys xs : List CNote} (p2 p1 : CNote),
    List.Forall₂ obsEqv ys xs → LR t2 p2 p1 ys xs := by
  intro ys xs p2 p1 h
  induction h generalizing p2 p1 with
  | nil => exact .nil ..
  | cons hobs _ ih => exact .eq hobs (ih ..)

theorem LR_weaken {t2 : Bool} {p2 p1 : CNote} {ys xs : List CNote}
    (h : LR t2 p2 p1 ys xs) : LR true p2 p1 ys xs := by
  induction h with
  | nil => exact .nil ..
  | eq hobs _ ih => exact .eq hobs ih
  | cl1 hctx hnext hcl _ ih => exact .cl1 hctx hnext hcl ih
  | cl2 hctx hnext hcl _ ih => exact .cl2 hctx hnext hcl ih

theorem bool_eq_false {b : Bool} (h : b = true → False) : b = false := by
  cases b
  · rfl
  · exact absurd rfl h

theorem rule1Match_eq_true {n1 n2 n3 : CNote} :
    rule1Match n1 n2 n3 = true ↔
      n1.isRest = false ∧ n2.isRest = false ∧ n3.isRest = false ∧
      n1.pitch.accidental = none ∧ n3.pitch.accidental = none ∧
      ¬ n2.pitch.step = Step.A ∧ ¬ n2.pitch.step = Step.D ∧
      directedName (notesToInterval n1 n2) = (Quality.maj, -2) ∧
      directedName (notesToInterval n2 n3) = (Quality.maj, 2) := by
  simp [rule1Match, and_assoc]

theorem rule2Match_eq_true {n1 n2 n3 n4 : CNote} :
    rule2Match n1 n2 n3 n4 = true ↔
      n1.isRest = false ∧ n2.isRest = false ∧ n3.isRest = false ∧ n4.isRest = false ∧
      n1.pitch.accidental = none ∧ n2.pitch.accidental = none ∧
      n4.pitch.accidental = none ∧
      ¬ n3.pitch.step = Step.A ∧ ¬ n3.pitch.step = Step.D ∧
      directedName (notesToInterval n1 n2) = (Quality.maj, 2) ∧
      directedName (notesToInterval n2 n3) = (Quality.minor, 2) ∧
      directedName (notesToInterval n3 n4) = (Quality.maj, 2) := by
  simp [rule2Match, and_assoc]

theorem rule3Match_eq_true {n1 n2 n3 : CNote} :
    rule3Match n1 n2 n3 = true ↔
      n1.isRest = false ∧ n2.isRest = false ∧ n3.isRest = false ∧
      n1.pitch.accidental = none ∧ n2.pitch.accidental = none ∧
      n3.pitch.accidental = none ∧
      ¬ n2.pitch.step = Step.A ∧ ¬ n2.pitch.step = Step.D ∧
      directedName (notesToInterval n1 n2) = (Quality.maj, -3) ∧
      directedName (notesToInterval n2 n3) = (Quality.maj, 2) := by
  simp [rule3Match, and_assoc]

theorem rule4BMatch_eq_true {n1 n2 n3 : CNote} :
    rule4BMatch n1 n2 n3 = true ↔
      n1.isRest = false ∧ n2.isRest = false ∧ n3.isRest = false ∧
      n1.pitch.accidental = none ∧ n3.pitch.accidental = none ∧
      ¬ n2.pitch.step = Step.A ∧ ¬ n2.pitch.step = Step.D ∧
      directedName (notesToInterval n1 n2) = (Quality.minor, 3) ∧
      directedName (notesToInterval n2 n3) = (Quality.maj, 2) := by
  simp [rule4BMatch, and_assoc]

theorem rule1Match_congr {a b c a' b' c' : CNote}
    (ha : obsEqv a a') (hb : obsEqv b b') (hc : obsEqv c c') :
    rule1Match a' b' c' = rule1Match a b c := by
  unfold rule1Match notesToInterval
  rw [ha.1, ha.2, hb.1, hb.2, hc.1, hc.2]

theorem rule2Match_congr {a b c d a' b' c' d' : CNote}
    (ha : obsEqv a a') (hb : obsEqv b b') (hc : obsEqv c c') (hd : obsEqv d d') :
    rule2Match a' b' c' d' = rule2Match a b c d := by
  unfold rule2Match notesToInterval
  rw [ha.1, ha.2, hb.1, hb.2, hc.1, hc.2, hd.1, hd.2]

theorem rule3Match_congr {a b c a' b' c' : CNote}
    (ha : obsEqv a a') (hb : obsEqv b b') (hc : obsEqv c c') :
    rule3Match a' b' c' = rule3Match a b c := by
  unfold rule3Match notesToInterval
  rw [ha.1, ha.2, hb.1, hb.2, hc.1, hc.2]

theorem rule4BMatch_congr {a b c a' b' c' : CNote}
    (ha : obsEqv a a') (hb : obsEqv b b') (hc : obsEqv c c') :
    rule4BMatch a' b' c' = rule4BMatch a b c := by
  unfold rule4BMatch notesToInterval
  rw [ha.1, ha.2, hb.1, hb.2, hc.1, hc.2]

theorem flatAwareFire_pitch (r : Nat) (gf ge : String) (n : CNote) :
    (flatAwareFire r gf ge n).isRest = n.isRest ∧
    (flatAwareFire r gf ge n).pitch =
      (if n.pitch.accidental = some AccName.flat then
        { n.pitch with accidental := none } else n.pitch) := by
  unfold flatAwareFire
  split_ifs <;> exact ⟨rfl, rfl⟩

theorem flatAwareFire_obs_congr (r : Nat) (gf ge : String) {y x : CNote}
    (h : obsEqv y x) :
    obsEqv (flatAwareFire r gf ge y) (flatAwareFire r gf ge x) := by
  obtain ⟨h1, h2⟩ := h
  have hy := flatAwareFire_pitch r gf ge y
  have hx := flatAwareFire_pitch r gf ge x
  constructor
  · rw [hy.1, hx.1, h1]
  · rw [hy.2, hx.2, h2]

theorem rule3Fire_obsEqv (n : CNote) : obsEqv n (rule3Fire n) := ⟨rfl, rfl⟩

theorem clearedPitch_staff {y x : CNote} (h : clearedPitch y x) :
    staffPos x.pitch = staffPos y.pitch := by
  unfold staffPos
  rw [h.2.1, h.2.2.1]

theorem clearedPitch_ps {y x : CNote} (h : clearedPitch y x)
    (hf : y.pitch.accidental = some AccName.flat) :
    psPos x.pitch = psPos y.pitch + 1 := by
  unfold psPos
  rw [h.2.1, h.2.2.1, h.2.2.2, hf]
  simp [alterOf]

theorem noAcc_alter {a : CNote} (h : a.pitch.accidental = none) :
    alterOf a.pitch.accidental = 0 := by rw [h]; rfl

theorem flat_alter {a : CNote} (h : a.pitch.accidental = some AccName.flat) :
    alterOf a.pitch.accidental = -1 := by rw [h]; rfl

/-- A note one staff step above a flat, itself accidental-free, at `±2`
semitones, is exactly a whole tone above. -/
theorem wt_above_of_flat {b a : CNote} (hs : staffPos a.pitch = staffPos b.pitch + 1)
    (hps : psPos a.pitch = psPos b.pitch + 2 ∨ psPos a.pitch = psPos b.pitch - 2)
    (hfb : b.pitch.accidental = some AccName.flat) (hna : a.pitch.accidental = none) :
    psPos a.pitch = psPos b.pitch + 2 := by
  have hg := natPs_gap b.pitch a.pitch hs
  rw [noAcc_alter hna, flat_alter hfb] at hg
  omega

/-- An accidental-free note one staff step below a flat, at `±1` semitones,
is exactly a diatonic semitone below. -/
theorem ht_below_of_flat {p1 y : CNote} (hs : staffPos y.pitch = staffPos p1.pitch + 1)
    (hps : psPos y.pitch = psPos p1.pitch + 1 ∨ psPos y.pitch = psPos p1.pitch - 1)
    (hfy : y.pitch.accidental = some AccName.flat) (hn : p1.pitch.accidental = none) :
    psPos y.pitch = psPos p1.pitch + 1 := by
  have hg := natPs_gap p1.pitch y.pitch hs
  rw [noAcc_alter hn, flat_alter hfy] at hg
  omega

/-- Two accidental-free notes one staff step apart at `±2` semitones are a
whole tone apart upward. -/
theorem wt_above_of_noacc {b a : CNote} (hs : staffPos a.pitch = staffPos b.pitch + 1)
    (hps : psPos a.pitch = psPos b.pitch + 2 ∨ psPos a.pitch = psPos b.pitch - 2)
    (hnb : b.pitch.accidental = none) (hna : a.pitch.accidental = none) :
    psPos a.pitch = psPos b.pitch + 2 := by
  have hg := natPs_gap b.pitch a.pitch hs
  rw [noAcc_alter hna, noAcc_alter hnb] at hg
  omega

/-! Slot lemmas: a window containing a cleared pivot (on the mutated stream)
or the corresponding flat pivot (on the fresh stream) matches no rule, for
each slot the cleared note can occupy. -/

theorem r2F_n1 {ya xa yb xb yc yd xc xd : CNote}
    (hflat : ya.pitch.accidental = some AccName.flat)
    (hnext : upStep ya yb 2) (hcl : clearedPitch ya xa) (hb : xb.pitch = yb.pitch) :
    rule2Match ya yb yc yd = false ∧ rule2Match xa xb xc xd = false := by
  constructor
  · apply bool_eq_false
    intro hm
    rw [rule2Match_eq_true] at hm
    obtain ⟨-, -, -, -, h5, -⟩ := hm
    rw [h5] at hflat
    cases hflat
  · apply bool_eq_false
    intro hm
    rw [rule2Match_eq_true] at hm
    obtain ⟨-, -, -, -, -, -, -, -, -, hi1, -, -⟩ := hm
    obtain ⟨hsd, hps⟩ := dirName_M2up hi1
    have e2 : psPos xa.pitch = psPos ya.pitch + 1 := clearedPitch_ps hcl hflat
    have e3 : psPos xb.pitch = psPos ya.pitch + 2 := by rw [hb]; exact hnext.2
    omega

theorem r2F_n2 {ya xa yb xb yc yd xc xd : CNote}
    (hflat : yb.pitch.accidental = some AccName.flat)
    (hprev : upStep yb ya 2) (hcl : clearedPitch yb xb) (ha : xa.pitch = ya.pitch) :
    rule2Match ya yb yc yd = false ∧ rule2Match xa xb xc xd = false := by
  constructor
  · apply bool_eq_false
    intro hm
    rw [rule2Match_eq_true] at hm
    obtain ⟨-, -, -, -, -, h6, -⟩ := hm
    rw [h6] at hflat
    cases hflat
  · apply bool_eq_false
    intro hm
    rw [rule2Match_eq_true] at hm
    obtain ⟨-, -, -, -, -, -, -, -, -, hi1, -, -⟩ := hm
    obtain ⟨hsd, -⟩ := dirName_M2up hi1
    have e1 : staffPos xb.pitch = staffPos yb.pitch := clearedPitch_staff hcl
    have e2 : staffPos xa.pitch = staffPos ya.pitch := by rw [ha]
    have e3 : staffPos ya.pitch = staffPos yb.pitch + 1 := hprev.1
    omega

theorem r2F_n3 {ya xa yb xb yc yd xc xd : CNote}
    (hflat : yc.pitch.accidental = some AccName.flat)
    (hprev : upStep yc yb 2) (hcl : clearedPitch yc xc) (hb : xb.pitch = yb.pitch) :
    rule2Match ya yb yc yd = false ∧ rule2Match xa xb xc xd = false := by
  constructor
  · apply bool_eq_false
    intro hm
    rw [rule2Match_eq_true] at hm
    obtain ⟨-, -, -, -, -, -, -, -, -, -, hi2, -⟩ := hm
    obtain ⟨hsd, -⟩ := dirName_m2up hi2
    have e3 : staffPos yb.pitch = staffPos yc.pitch + 1 := hprev.1
    omega
  · apply bool_eq_false
    intro hm
    rw [rule2Match_eq_true] at hm
    obtain ⟨-, -, -, -, -, -, -, -, -, -, hi2, -⟩ := hm
    obtain ⟨hsd, -⟩ := dirName_m2up hi2
    have e1 : staffPos xc.pitch = staffPos yc.pitch := clearedPitch_staff hcl
    have e2 : staffPos xb.pitch = staffPos yb.pitch := by rw [hb]
    have e3 : staffPos yb.pitch = staffPos yc.pitch + 1 := hprev.1
    omega

theorem r2F_n4 {ya xa yb xb yc yd xc xd : CNote}
    (hflat : yd.pitch.accidental = some AccName.flat)
    (hprev : upStep yd yc 2) (hcl : clearedPitch yd xd) (hc : xc.pitch = yc.pitch) :
    rule2Match ya yb yc yd = false ∧ rule2Match xa xb xc xd = false := by
  constructor
  · apply bool_eq_false
    intro hm
    rw [rule2Match_eq_true] at hm
    obtain ⟨-, -, -, -, -, -, h7, -⟩ := hm
    rw [h7] at hflat
    cases hflat
  · apply bool_eq_false
    intro hm
    rw [rule2Match_eq_true] at hm
    obtain ⟨-, -, -, -, -, -, -, -, -, -, -, hi3⟩ := hm
    obtain ⟨hsd, -⟩ := dirName_M2up hi3
    have e1 : staffPos xd.pitch = staffPos yd.pitch := clearedPitch_staff hcl
    have e2 : staffPos xc.pitch = staffPos yc.pitch := by rw [hc]
    have e3 : staffPos yc.pitch = staffPos yd.pitch + 1 := hprev.1
    omega

theorem r3F_n1 {ya xa yb xb yc xc : CNote}
    (hflat : ya.pitch.accidental = some AccName.flat)
    (hnext : upStep ya yb 2) (hcl : clearedPitch ya xa) (hb : xb.pitch = yb.pitch) :
    rule3Match ya yb yc = false ∧ rule3Match xa xb xc = false := by
  constructor
  · apply bool_eq_false
    intro hm
    rw [rule3Match_eq_true] at hm
    obtain ⟨-, -, -, h4, -⟩ := hm
    rw [h4] at hflat
    cases hflat
  · apply bool_eq_false
    intro hm
    rw [rule3Match_eq_true] at hm
    obtain ⟨-, -, -, -, -, -, -, -, hi1, -⟩ := hm
    have hsd := dirName_M3dn hi1
    have e1 : staffPos xa.pitch = staffPos ya.pitch := clearedPitch_staff hcl
    have e2 : staffPos xb.pitch = staffPos ya.pitch + 1 := by rw [hb]; exact hnext.1
    omega

theorem r3F_n2_cl1 {ya xa yb xb yc xc : CNote}
    (hflat : yb.pitch.accidental = some AccName.flat)
    (hprev : upStep yb ya 2) (hcl : clearedPitch yb xb) (ha : xa.pitch = ya.pitch) :
    rule3Match ya yb yc = false ∧ rule3Match xa xb xc = false := by
  constructor
  · apply bool_eq_false
    intro hm
    rw [rule3Match_eq_true] at hm
    obtain ⟨-, -, -, -, h5, -⟩ := hm
    rw [h5] at hflat
    cases hflat
  · apply bool_eq_false
    intro hm
    rw [rule3Match_eq_true] at hm
    obtain ⟨-, -, -, -, -, -, -, -, hi1, -⟩ := hm
    have hsd := dirName_M3dn hi1
    have e1 : staffPos xb.pitch = staffPos yb.pitch := clearedPitch_staff hcl
    have e2 : staffPos xa.pitch = staffPos ya.pitch := by rw [ha]
    have e3 : staffPos ya.pitch = staffPos yb.pitch + 1 := hprev.1
    omega

theorem r3F_n2_cl2 {ya xa yb xb yc xc : CNote}
    (hflat : yb.pitch.accidental = some AccName.flat)
    (hprev : upStep ya yb 1) (hcl : clearedPitch yb xb) (ha : xa.pitch = ya.pitch) :
    rule3Match ya yb yc = false ∧ rule3Match xa xb xc = false := by
  constructor
  · apply bool_eq_false
    intro hm
    rw [rule3Match_eq_true] at hm
    obtain ⟨-, -, -, -, h5, -⟩ := hm
    rw [h5] at hflat
    cases hflat
  · apply bool_eq_false
    intro hm
    rw [rule3Match_eq_true] at hm
    obtain ⟨-, -, -, -, -, -, -, -, hi1, -⟩ := hm
    have hsd := dirName_M3dn hi1
    have e1 : staffPos xb.pitch = staffPos yb.pitch := clearedPitch_staff hcl
    have e2 : staffPos xa.pitch = staffPos ya.pitch := by rw [ha]
    have e3 : staffPos yb.pitch = staffPos ya.pitch + 1 := hprev.1
    omega

theorem r3F_n3_cl1 {ya xa yb xb yc xc : CNote}
    (hflat : yc.pitch.accidental = some AccName.flat)
    (hprev : upStep yc yb 2) (hcl : clearedPitch yc xc) (hb : xb.pitch = yb.pitch) :
    rule3Match ya yb yc = false ∧ rule3Match xa xb xc = false := by
  constructor
  · apply bool_eq_false
    intro hm
    rw [rule3Match_eq_true] at hm
    obtain ⟨-, -, -, -, -, h6, -⟩ := hm
    rw [h6] at hflat
    cases hflat
  · apply bool_eq_false
    intro hm
    rw [rule3Match_eq_true] at hm
    obtain ⟨-, -, -, -, -, -, -, -, -, hi2⟩ := hm
    obtain ⟨hsd, -⟩ := dirName_M2up hi2
    have e1 : staffPos xc.pitch = staffPos yc.pitch := clearedPitch_staff hcl
    have e2 : staffPos xb.pitch = staffPos yb.pitch := by rw [hb]
    have e3 : staffPos yb.pitch = staffPos yc.pitch + 1 := hprev.1
    omega

theorem r3F_n3_cl2 {ya xa yb xb yc xc : CNote}
    (hflat : yc.pitch.accidental = some AccName.flat)
    (hprev2 : upStep ya yb 2) (ha : xa.pitch = ya.pitch) (hb : xb.pitch = yb.pitch) :
    rule3Match ya yb yc = false ∧ rule3Match xa xb xc = false := by
  constructor
  · apply bool_eq_false
    intro hm
    rw [rule3Match_eq_true] at hm
    obtain ⟨-, -, -, -, -, h6, -⟩ := hm
    rw [h6] at hflat
    cases hflat
  · apply bool_eq_false
    intro hm
    rw [rule3Match_eq_true] at hm
    obtain ⟨-, -, -, -, -, -, -, -, hi1, -⟩ := hm
    have hsd := dirName_M3dn hi1
    have e1 : staffPos xa.pitch = staffPos ya.pitch := by rw [ha]
    have e2 : staffPos xb.pitch = staffPos yb.pitch := by rw [hb]
    have e3 : staffPos yb.pitch = staffPos ya.pitch + 1 := hprev2.1
    omega

theorem r4F_n1 {ya xa yb xb yc xc : CNote}
    (hflat : ya.pitch.accidental = some AccName.flat)
    (hnext : upStep ya yb 2) (hcl : clearedPitch ya xa) (hb : xb.pitch = yb.pitch) :
    rule4BMatch ya yb yc = false ∧ rule4BMatch xa xb xc = false := by
  constructor
  · apply bool_eq_false
    intro hm
    rw [rule4BMatch_eq_true] at hm
    obtain ⟨-, -, -, h4, -⟩ := hm
    rw [h4] at hflat
    cases hflat
  · apply bool_eq_false
    intro hm
    rw [rule4BMatch_eq_true] at hm
    obtain ⟨-, -, -, -, -, -, -, hi1, -⟩ := hm
    obtain ⟨hsd, -⟩ := dirName_m3up hi1
    have e1 : staffPos xa.pitch = staffPos ya.pitch := clearedPitch_staff hcl
    have e2 : staffPos xb.pitch = staffPos ya.pitch + 1 := by rw [hb]; exact hnext.1
    omega

theorem r4F_n2_cl1 {ya xa yb xb yc xc : CNote}
    (hflat : yb.pitch.accidental = some AccName.flat)
    (hprev : upStep yb ya 2) (hcl : clearedPitch yb xb) (ha : xa.pitch = ya.pitch) :
    rule4BMatch ya yb yc = false ∧ rule4BMatch xa xb xc = false := by
  constructor
  · apply bool_eq_false
    intro hm
    rw [rule4BMatch_eq_true] at hm
    obtain ⟨-, -, -, -, -, -, -, hi1, -⟩ := hm
    obtain ⟨hsd, -⟩ := dirName_m3up hi1
    have e3 : staffPos ya.pitch = staffPos yb.pitch + 1 := hprev.1
    omega
  · apply bool_eq_false
    intro hm
    rw [rule4BMatch_eq_true] at hm
    obtain ⟨-, -, -, -, -, -, -, hi1, -⟩ := hm
    obtain ⟨hsd, -⟩ := dirName_m3up hi1
    have e1 : staffPos xb.pitch = staffPos yb.pitch := clearedPitch_staff hcl
    have e2 : staffPos xa.pitch = staffPos ya.pitch := by rw [ha]
    have e3 : staffPos ya.pitch = staffPos yb.pitch + 1 := hprev.1
    omega

theorem r4F_n2_cl2 {ya xa yb xb yc xc : CNote}
    (hflat : yb.pitch.accidental = some AccName.flat)
    (hprev : upStep ya yb 1) (hcl : clearedPitch yb xb) (ha : xa.pitch = ya.pitch) :
    rule4BMatch ya yb yc = false ∧ rule4BMatch xa xb xc = false := by
  constructor
  · apply bool_eq_false
    intro hm
    rw [rule4BMatch_eq_true] at hm
    obtain ⟨-, -, -, -, -, -, -, hi1, -⟩ := hm
    obtain ⟨hsd, -⟩ := dirName_m3up hi1
    have e3 : staffPos yb.pitch = staffPos ya.pitch + 1 := hprev.1
    omega
  · apply bool_eq_false
    intro hm
    rw [rule4BMatch_eq_true] at hm
    obtain ⟨-, -, -, -, -, -, -, hi1, -⟩ := hm
    obtain ⟨hsd, -⟩ := dirName_m3up hi1
    have e1 : staffPos xb.pitch = staffPos yb.pitch := clearedPitch_staff hcl
    have e2 : staffPos xa.pitch = staffPos ya.pitch := by rw [ha]
    have e3 : staffPos yb.pitch = staffPos ya.pitch + 1 := hprev.1
    omega

theorem r4F_n3_cl1 {ya xa yb xb yc xc : CNote}
    (hflat : yc.pitch.accidental = some AccName.flat)
    (hprev : upStep yc yb 2) (hcl : clearedPitch yc xc) (hb : xb.pitch = yb.pitch) :
    rule4BMatch ya yb yc = false ∧ rule4BMatch xa xb xc = false := by
  constructor
  · apply bool_eq_false
    intro hm
    rw [rule4BMatch_eq_true] at hm
    obtain ⟨-, -, -, -, h5, -⟩ := hm
    rw [h5] at hflat
    cases hflat
  · apply bool_eq_false
    intro hm
    rw [rule4BMatch_eq_true] at hm
    obtain ⟨-, -, -, -, -, -, -, -, hi2⟩ := hm
    obtain ⟨hsd, -⟩ := dirName_M2up hi2
    have e1 : staffPos xc.pitch = staffPos yc.pitch := clearedPitch_staff hcl
    have e2 : staffPos xb.pitch = staffPos yb.pitch := by rw [hb]
    have e3 : staffPos yb.pitch = staffPos yc.pitch + 1 := hprev.1
    omega

theorem r4F_n3_cl2 {ya xa yb xb yc xc : CNote}
    (hflat : yc.pitch.accidental = some AccName.flat)
    (hprev2 : upStep ya yb 2) (ha : xa.pitch = ya.pitch) (hb : xb.pitch = yb.pitch) :
    rule4BMatch ya yb yc = false ∧ rule4BMatch xa xb xc = false := by
  constructor
  · apply bool_eq_false
    intro hm
    rw [rule4BMatch_eq_true] at hm
    obtain ⟨-, -, -, -, h5, -⟩ := hm
    rw [h5] at hflat
    cases hflat
  · apply bool_eq_false
    intro hm
    rw [rule4BMatch_eq_true] at hm
    obtain ⟨-, -, -, -, -, -, -, hi1, -⟩ := hm
    obtain ⟨hsd, -⟩ := dirName_m3up hi1
    have e1 : staffPos xa.pitch = staffPos ya.pitch := by rw [ha]
    have e2 : staffPos xb.pitch = staffPos yb.pitch := by rw [hb]
    have e3 : staffPos yb.pitch = staffPos ya.pitch + 1 := hprev2.1
    omega

theorem nextWt_cons (y r : CNote) (l : List CNote) :
    nextWt y (r :: l) ↔ noAcc r ∧ upStep y r 2 := Iff.rfl

theorem LR_tail {t2 : Bool} {p2 p1 y x : CNote} {ys xs : List CNote}
    (h : LR t2 p2 p1 (y :: ys) (x :: xs)) : LR t2 p1 y ys xs := by
  cases h with
  | eq _ ht => exact ht
  | cl1 _ _ _ ht => exact ht
  | cl2 _ _ _ ht => exact ht

theorem LR_nil_right {t2 : Bool} {p2 p1 : CNote} {xs : List CNote}
    (h : LR t2 p2 p1 [] xs) : xs = [] := by
  cases h
  rfl

theorem LR_cons_right {t2 : Bool} {p2 p1 y : CNote} {ys xs : List CNote}
    (h : LR t2 p2 p1 (y :: ys) xs) : ∃ x xs', xs = x :: xs' := by
  cases h with
  | eq _ _ => exact ⟨_, _, rfl⟩
  | cl1 _ _ _ _ => exact ⟨_, _, rfl⟩
  | cl2 _ _ _ _ => exact ⟨_, _, rfl⟩

theorem LR_head {t2 : Bool} {p2 p1 y x : CNote} {ys xs : List CNote}
    (h : LR t2 p2 p1 (y :: ys) (x :: xs)) :
    obsEqv y x ∨
    (clCtx1 p1 y ∧ nextWt y ys ∧ clearedPitch y x) ∨
    (t2 = true ∧ clCtx2 p2 p1 y ∧ nextWt y ys ∧ clearedPitch y x) := by
  cases h with
  | eq e _ => exact Or.inl e
  | cl1 c n cl _ => exact Or.inr (Or.inl ⟨c, n, cl⟩)
  | cl2 c n cl _ => exact Or.inr (Or.inr ⟨rfl, c, n, cl⟩)

/-- Window facts for rule 2 over the rule-1 clearing relation: the window
matches equally on both streams, and a matching window relates all four
notes by observation equality. -/
theorem r2_win {q2 q1 ya yb yc yd xa xb xc xd : CNote} {ys xs : List CNote}
    (h : LR false q2 q1 (ya :: yb :: yc :: yd :: ys) (xa :: xb :: xc :: xd :: xs)) :
    rule2Match xa xb xc xd = rule2Match ya yb yc yd ∧
    (rule2Match ya yb yc yd = true →
      obsEqv ya xa ∧ obsEqv yb xb ∧ obsEqv yc xc ∧ obsEqv yd xd) := by
  have ht1 := LR_tail h
  have ht2 := LR_tail ht1
  have ht3 := LR_tail ht2
  rcases LR_head h with e1 | ⟨c1, n1, cl1⟩ | ⟨hft, -⟩
  · rcases LR_head ht1 with e2 | ⟨c2, n2, cl2⟩ | ⟨hft, -⟩
    · rcases LR_head ht2 with e3 | ⟨c3, n3, cl3⟩ | ⟨hft, -⟩
      · rcases LR_head ht3 with e4 | ⟨c4, n4, cl4⟩ | ⟨hft, -⟩
        · exact ⟨rule2Match_congr e1 e2 e3 e4, fun _ => ⟨e1, e2, e3, e4⟩⟩
        · have hres := @r2F_n4 ya xa yb xb yc yd xc xd c4.2.1 c4.2.2.2.2.2 cl4 e3.2
          exact ⟨hres.2.trans hres.1.symm, fun hm => by simp [hres.1] at hm⟩
        · cases hft
      · have hres := @r2F_n3 ya xa yb xb yc yd xc xd c3.2.1 c3.2.2.2.2.2 cl3 e2.2
        exact ⟨hres.2.trans hres.1.symm, fun hm => by simp [hres.1] at hm⟩
      · cases hft
    · have hres := @r2F_n2 ya xa yb xb yc yd xc xd c2.2.1 c2.2.2.2.2.2 cl2 e1.2
      exact ⟨hres.2.trans hres.1.symm, fun hm => by simp [hres.1] at hm⟩
    · cases hft
  · obtain ⟨hnb, hupb⟩ := (nextWt_cons _ _ _).mp n1
    rcases LR_head ht1 with e2 | ⟨c2, -, -⟩ | ⟨hft, -⟩
    · have hres := @r2F_n1 ya xa yb xb yc yd xc xd c1.2.1 hupb cl1 e2.2
      exact ⟨hres.2.trans hres.1.symm, fun hm => by simp [hres.1] at hm⟩
    · have hx := c2.2.1
      rw [hnb.2] at hx
      cases hx
    · cases hft
  · cases hft

/-- Window facts for rule 3 over the combined clearing relation. -/
theorem r3_win {q2 q1 ya yb yc xa xb xc : CNote} {ys xs : List CNote}
    (h : LR true q2 q1 (ya :: yb :: yc :: ys) (xa :: xb :: xc :: xs)) :
    rule3Match xa xb xc = rule3Match ya yb yc ∧
    (rule3Match ya yb yc = true → obsEqv ya xa ∧ obsEqv yb xb ∧ obsEqv yc xc) := by
  have ht1 := LR_tail h
  have ht2 := LR_tail ht1
  rcases LR_head h with e1 | ⟨c1, n1, cl1⟩ | ⟨-, c1, n1, cl1⟩
  · rcases LR_head ht1 with e2 | ⟨c2, n2, cl2⟩ | ⟨-, c2, n2, cl2⟩
    · rcases LR_head ht2 with e3 | ⟨c3, n3, cl3⟩ | ⟨-, c3, n3, cl3⟩
      · exact ⟨rule3Match_congr e1 e2 e3, fun _ => ⟨e1, e2, e3⟩⟩
      · have hres := @r3F_n3_cl1 ya xa yb xb yc xc c3.2.1 c3.2.2.2.2.2 cl3 e2.2
        exact ⟨hres.2.trans hres.1.symm, fun hm => by simp [hres.1] at hm⟩
      · have hres := @r3F_n3_cl2 ya xa yb xb yc xc c3.2.1 c3.2.2.2.2.2.2.2 e1.2 e2.2
        exact ⟨hres.2.trans hres.1.symm, fun hm => by simp [hres.1] at hm⟩
    · have hres := @r3F_n2_cl1 ya xa yb xb yc xc c2.2.1 c2.2.2.2.2.2 cl2 e1.2
      exact ⟨hres.2.trans hres.1.symm, fun hm => by simp [hres.1] at hm⟩
    · have hres := @r3F_n2_cl2 ya xa yb xb yc xc c2.2.1 c2.2.2.2.2.2.1 cl2 e1.2
      exact ⟨hres.2.trans hres.1.symm, fun hm => by simp [hres.1] at hm⟩
  · obtain ⟨hnb, hupb⟩ := (nextWt_cons _ _ _).mp n1
    rcases LR_head ht1 with e2 | ⟨c2, -, -⟩ | ⟨-, c2, -, -⟩
    · have hres := @r3F_n1 ya xa yb xb yc xc c1.2.1 hupb cl1 e2.2
      exact ⟨hres.2.trans hres.1.symm, fun hm => by simp [hres.1] at hm⟩
    · have hx := c2.2.1
      rw [hnb.2] at hx
      cases hx
    · have hx := c2.2.1
      rw [hnb.2] at hx
      cases hx
  · obtain ⟨hnb, hupb⟩ := (nextWt_cons _ _ _).mp n1
    rcases LR_head ht1 with e2 | ⟨c2, -, -⟩ | ⟨-, c2, -, -⟩
    · have hres := @r3F_n1 ya xa yb xb yc xc c1.2.1 hupb cl1 e2.2
      exact ⟨hres.2.trans hres.1.symm, fun hm => by simp [hres.1] at hm⟩
    · have hx := c2.2.1
      rw [hnb.2] at hx
      cases hx
    · have hx := c2.2.1
      rw [hnb.2] at hx
      cases hx

/-- Window facts for rule 4B over the combined clearing relation. -/
theorem r4_win {q2 q1 ya yb yc xa xb xc : CNote} {ys xs : List CNote}
    (h : LR true q2 q1 (ya :: yb :: yc :: ys) (xa :: xb :: xc :: xs)) :
    rule4BMatch xa xb xc = rule4BMatch ya yb yc ∧
    (rule4BMatch ya yb yc = true → obsEqv ya xa ∧ obsEqv yb xb ∧ obsEqv yc xc) := by
  have ht1 := LR_tail h
  have ht2 := LR_tail ht1
  rcases LR_head h with e1 | ⟨c1, n1, cl1⟩ | ⟨-, c1, n1, cl1⟩
  · rcases LR_head ht1 with e2 | ⟨c2, n2, cl2⟩ | ⟨-, c2, n2, cl2⟩
    · rcases LR_head ht2 with e3 | ⟨c3, n3, cl3⟩ | ⟨-, c3, n3, cl3⟩
      · exact ⟨rule4BMatch_congr e1 e2 e3, fun _ => ⟨e1, e2, e3⟩⟩
      · have hres := @r4F_n3_cl1 ya xa yb xb yc xc c3.2.1 c3.2.2.2.2.2 cl3 e2.2
        exact ⟨hres.2.trans hres.1.symm, fun hm => by simp [hres.1] at hm⟩
      · have hres := @r4F_n3_cl2 ya xa yb xb yc xc c3.2.1 c3.2.2.2.2.2.2.2 e1.2 e2.2
        exact ⟨hres.2.trans hres.1.symm, fun hm => by simp [hres.1] at hm⟩
    · have hres := @r4F_n2_cl1 ya xa yb xb yc xc c2.2.1 c2.2.2.2.2.2 cl2 e1.2
      exact ⟨hres.2.trans hres.1.symm, fun hm => by simp [hres.1] at hm⟩
    · have hres := @r4F_n2_cl2 ya xa yb xb yc xc c2.2.1 c2.2.2.2.2.2.1 cl2 e1.2
      exact ⟨hres.2.trans hres.1.symm, fun hm => by simp [hres.1] at hm⟩
  · obtain ⟨hnb, hupb⟩ := (nextWt_cons _ _ _).mp n1
    rcases LR_head ht1 with e2 | ⟨c2, -, -⟩ | ⟨-, c2, -, -⟩
    · have hres := @r4F_n1 ya xa yb xb yc xc c1.2.1 hupb cl1 e2.2
      exact ⟨hres.2.trans hres.1.symm, fun hm => by simp [hres.1] at hm⟩
    · have hx := c2.2.1
      rw [hnb.2] at hx
      cases hx
    · have hx := c2.2.1
      rw [hnb.2] at hx
      cases hx
  · obtain ⟨hnb, hupb⟩ := (nextWt_cons _ _ _).mp n1
    rcases LR_head ht1 with e2 | ⟨c2, -, -⟩ | ⟨-, c2, -, -⟩
    · have hres := @r4F_n1 ya xa yb xb yc xc c1.2.1 hupb cl1 e2.2
      exact ⟨hres.2.trans hres.1.symm, fun hm => by simp [hres.1] at hm⟩
    · have hx := c2.2.1
      rw [hnb.2] at hx
      cases hx
    · have hx := c2.2.1
      rw [hnb.2] at hx
      cases hx

theorem obsEqv_trans {a b c : CNote} (h1 : obsEqv a b) (h2 : obsEqv b c) : obsEqv a c :=
  ⟨h2.1.trans h1.1, h2.2.trans h1.2⟩

theorem flatAwareFire_obsEqv_of_not_flat (r : Nat) (gf ge : String) {n : CNote}
    (h : ¬ n.pitch.accidental = some AccName.flat) :
    obsEqv n (flatAwareFire r gf ge n) := by
  have hp := flatAwareFire_pitch r gf ge n
  exact ⟨hp.1, by rw [hp.2, if_neg h]⟩

theorem flatAwareFire_cleared (r : Nat) (gf ge : String) {y n : CNote}
    (hobs : obsEqv y n) (hr : n.isRest = false)
    (hf : n.pitch.accidental = some AccName.flat) :
    clearedPitch y (flatAwareFire r gf ge n) := by
  have hp := flatAwareFire_pitch r gf ge n
  refine ⟨by rw [hp.1, hr], ?_, ?_, ?_⟩
  · rw [hp.2, if_pos hf]
    show n.pitch.step = y.pitch.step
    rw [hobs.2]
  · rw [hp.2, if_pos hf]
    show n.pitch.octave = y.pitch.octave
    rw [hobs.2]
  · rw [hp.2, if_pos hf]

/-- The rule-1 scan relates its input to its output by the rule-1 clearing
relation: invariant of the sliding window. -/
theorem rel1_go : ∀ (rest : List CNote) (q2 q1 ya yb a b : CNote)
    (hA : obsEqv ya a ∨
      (clCtx1 q1 ya ∧ clearedPitch ya a ∧ noAcc yb ∧ upStep ya yb 2))
    (hB : obsEqv yb b),
    LR false q2 q1 (ya :: yb :: rest)
      ((pass3Go rule1Match (flatAwareFire RULE_ONE "forestGreen" "ForestGreen")
        "blue" a b rest).1) := by
  intro rest
  induction rest with
  | nil =>
    intro q2 q1 ya yb a b hA hB
    show LR false q2 q1 [ya, yb] [a, b]
    rcases hA with hA | ⟨hctx, hcl, hn1, hn2⟩
    · exact .eq hA (.eq hB (.nil ..))
    · exact .cl1 hctx ⟨hn1, hn2⟩ hcl (.eq hB (.nil ..))
  | cons c rest ih =>
    intro q2 q1 ya yb a b hA hB
    by_cases hm : rule1Match a b c = true
    · have hfacts := rule1Match_eq_true.mp hm
      obtain ⟨hra, hrb, hrc, haa, hac, hsA, hsD, hi1, hi2⟩ := hfacts
      obtain ⟨hs1, hp1⟩ := dirName_M2dn hi1
      obtain ⟨hs2, hp2⟩ := dirName_M2up hi2
      rcases hA with hA | ⟨hctx, hcl, hnb, hup⟩
      · -- fire with a fresh left note
        show LR false q2 q1 (ya :: yb :: c :: rest)
          ((pass3Go rule1Match (flatAwareFire RULE_ONE "forestGreen" "ForestGreen")
            "blue" a b (c :: rest)).1)
        rw [show (pass3Go rule1Match (flatAwareFire RULE_ONE "forestGreen" "ForestGreen")
            "blue" a b (c :: rest)).1 =
          setColor "blue" a :: (pass3Go rule1Match
            (flatAwareFire RULE_ONE "forestGreen" "ForestGreen") "blue"
            (flatAwareFire RULE_ONE "forestGreen" "ForestGreen" b)
            (setColor "blue" c) rest).1 by simp [pass3Go, hm]]
        refine LR.eq (obsEqv_trans hA (obsEqv_setColor _ _)) ?_
        by_cases hf : b.pitch.accidental = some AccName.flat
        · -- flat pivot is cleared; record the rule-1 clearing context
          refine ih q1 ya yb c (flatAwareFire RULE_ONE "forestGreen" "ForestGreen" b)
            (setColor "blue" c) (Or.inr ⟨?_, ?_, ?_, ?_⟩) (obsEqv_setColor _ _)
          · -- clCtx1 ya yb
            refine ⟨by rw [← hB.1]; exact hrb, by rw [← hB.2]; exact hf,
              by rw [← hB.2]; exact hsA, by rw [← hB.2]; exact hsD,
              ⟨by rw [← hA.1]; exact hra, by rw [hA.2] at haa; exact haa⟩, ?_, ?_⟩
            · -- staff: ya one step above yb
              have e1 : staffPos a.pitch = staffPos ya.pitch := by rw [hA.2]
              have e2 : staffPos b.pitch = staffPos yb.pitch := by rw [hB.2]
              omega
            · -- ps: exactly a whole tone
              have hps : psPos a.pitch = psPos b.pitch + 2 := by
                refine wt_above_of_flat (by omega) ?_ hf haa
                rcases hp1 with h | h
                · exact Or.inr (by omega)
                · exact Or.inl (by omega)
              have e1 : psPos a.pitch = psPos ya.pitch := by rw [hA.2]
              have e2 : psPos b.pitch = psPos yb.pitch := by rw [hB.2]
              omega
          · exact flatAwareFire_cleared _ _ _ hB hrb hf
          · exact ⟨hrc, hac⟩
          · -- upStep yb c 2
            have e2 : staffPos b.pitch = staffPos yb.pitch := by rw [hB.2]
            have e3 : psPos b.pitch = psPos yb.pitch := by rw [hB.2]
            have hps : psPos c.pitch = psPos b.pitch + 2 :=
              wt_above_of_flat hs2 hp2 hf hac
            exact ⟨by omega, by omega⟩
        · -- pivot keeps its pitch
          exact ih q1 ya yb c _ _
            (Or.inl (obsEqv_trans hB (flatAwareFire_obsEqv_of_not_flat _ _ _ hf)))
            (obsEqv_setColor _ _)
      · -- a cleared left note cannot start a rule-1 window
        exfalso
        have e1 := clearedPitch_staff hcl
        have e2 : staffPos b.pitch = staffPos yb.pitch := by rw [hB.2]
        have e3 := hup.1
        omega
    · show LR false q2 q1 (ya :: yb :: c :: rest)
        ((pass3Go rule1Match (flatAwareFire RULE_ONE "forestGreen" "ForestGreen")
          "blue" a b (c :: rest)).1)
      rw [show (pass3Go rule1Match (flatAwareFire RULE_ONE "forestGreen" "ForestGreen")
          "blue" a b (c :: rest)).1 =
        a :: (pass3Go rule1Match (flatAwareFire RULE_ONE "forestGreen" "ForestGreen")
          "blue" b c rest).1 by simp [pass3Go, hm]]
      have htail := ih q1 ya yb c b c (Or.inl hB) (obsEqv_refl c)
      rcases hA with hA | ⟨hctx, hcl, hn1, hn2⟩
      · exact .eq hA htail
      · exact .cl1 hctx ⟨hn1, hn2⟩ hcl htail

/-- Relation between a stream and the output of `capuaRuleOne` on it. -/
theorem rel1_est (q2 q1 : CNote) (t : List CNote) :
    LR false q2 q1 t (capuaRuleOne t).1 := by
  match t with
  | [] => exact .nil ..
  | [a] => exact .eq (obsEqv_refl a) (.nil ..)
  | a :: b :: rest =>
    exact rel1_go rest q2 q1 a b a b (Or.inl (obsEqv_refl a)) (obsEqv_refl b)

theorem clearedPitch_setColor {y n : CNote} (col : String) (h : clearedPitch y n) :
    clearedPitch y (setColor col n) := h

/-- The rule-2 scan relates its input to its output by the combined clearing
relation: invariant of the sliding window.  A cleared pivot can sit in the
first or second carried slot; the third is always untouched. -/
theorem rel2_go : ∀ (rest : List CNote) (q2 q1 ya yb yc a b c : CNote)
    (hA : obsEqv ya a ∨
      (clCtx2 q2 q1 ya ∧ clearedPitch ya a ∧ noAcc yb ∧ upStep ya yb 2))
    (hB : obsEqv yb b ∨
      (clCtx2 q1 ya yb ∧ clearedPitch yb b ∧ noAcc yc ∧ upStep yb yc 2))
    (hC : obsEqv yc c),
    LR true q2 q1 (ya :: yb :: yc :: rest)
      ((pass4Go rule2Match (flatAwareFire RULE_TWO "ForestGreen" "ForestGreen")
        "purple" a b c rest).1) := by
  intro rest
  induction rest with
  | nil =>
    intro q2 q1 ya yb yc a b c hA hB hC
    show LR true q2 q1 [ya, yb, yc] [a, b, c]
    have htail : LR true ya yb [yc] [c] := .eq hC (.nil ..)
    have hmid : LR true q1 ya [yb, yc] [b, c] := by
      rcases hB with hB | ⟨hctx, hcl, hn1, hn2⟩
      · exact .eq hB htail
      · exact .cl2 hctx ⟨hn1, hn2⟩ hcl htail
    rcases hA with hA | ⟨hctx, hcl, hn1, hn2⟩
    · exact .eq hA hmid
    · exact .cl2 hctx ⟨hn1, hn2⟩ hcl hmid
  | cons d rest ih =>
    intro q2 q1 ya yb yc a b c hA hB hC
    by_cases hm : rule2Match a b c d = true
    · have hfacts := rule2Match_eq_true.mp hm
      obtain ⟨hra, hrb, hrc, hrd, haa, hab, had, hsA, hsD, hi1, hi2, hi3⟩ := hfacts
      obtain ⟨hsi1, hpi1⟩ := dirName_M2up hi1
      obtain ⟨hsi2, hpi2⟩ := dirName_m2up hi2
      obtain ⟨hsi3, hpi3⟩ := dirName_M2up hi3
      show LR true q2 q1 (ya :: yb :: yc :: d :: rest)
        ((pass4Go rule2Match (flatAwareFire RULE_TWO "ForestGreen" "ForestGreen")
          "purple" a b c (d :: rest)).1)
      rw [show (pass4Go rule2Match (flatAwareFire RULE_TWO "ForestGreen" "ForestGreen")
          "purple" a b c (d :: rest)).1 =
        setColor "purple" a :: (pass4Go rule2Match
          (flatAwareFire RULE_TWO "ForestGreen" "ForestGreen") "purple"
          (setColor "purple" b)
          (flatAwareFire RULE_TWO "ForestGreen" "ForestGreen" c)
          (setColor "purple" d) rest).1 by simp [pass4Go, hm]]
      rcases hA with hA | ⟨hctxA, hclA, hnbA, hupA⟩
      · refine LR.eq (obsEqv_trans hA (obsEqv_setColor _ _)) ?_
        rcases hB with hB | ⟨hctxB, hclB, hncB, hupB⟩
        · -- both outer carried notes fresh
          by_cases hf : c.pitch.accidental = some AccName.flat
          · -- flat pivot cleared: record the rule-2 clearing context
            refine ih q1 ya yb yc d (setColor "purple" b)
              (flatAwareFire RULE_TWO "ForestGreen" "ForestGreen" c)
              (setColor "purple" d)
              (Or.inl (obsEqv_trans hB (obsEqv_setColor _ _)))
              (Or.inr ⟨?_, ?_, ?_, ?_⟩) (obsEqv_setColor _ _)
            · -- clCtx2 ya yb yc
              refine ⟨by rw [← hC.1]; exact hrc, by rw [← hC.2]; exact hf,
                by rw [← hC.2]; exact hsA, by rw [← hC.2]; exact hsD,
                ⟨by rw [← hB.1]; exact hrb, by rw [hB.2] at hab; exact hab⟩, ?_,
                ⟨by rw [← hA.1]; exact hra, by rw [hA.2] at haa; exact haa⟩, ?_⟩
              · -- upStep yb yc 1
                have hps : psPos c.pitch = psPos b.pitch + 1 :=
                  ht_below_of_flat hsi2 hpi2 hf hab
                have e1 : staffPos b.pitch = staffPos yb.pitch := by rw [hB.2]
                have e2 : psPos b.pitch = psPos yb.pitch := by rw [hB.2]
                have e3 : staffPos c.pitch = staffPos yc.pitch := by rw [hC.2]
                have e4 : psPos c.pitch = psPos yc.pitch := by rw [hC.2]
                exact ⟨by omega, by omega⟩
              · -- upStep ya yb 2
                have hps : psPos b.pitch = psPos a.pitch + 2 :=
                  wt_above_of_noacc hsi1 hpi1 haa hab
                have e1 : staffPos a.pitch = staffPos ya.pitch := by rw [hA.2]
                have e2 : psPos a.pitch = psPos ya.pitch := by rw [hA.2]
                have e3 : staffPos b.pitch = staffPos yb.pitch := by rw [hB.2]
                have e4 : psPos b.pitch = psPos yb.pitch := by rw [hB.2]
                exact ⟨by omega, by omega⟩
            · exact flatAwareFire_cleared _ _ _ hC hrc hf
            · exact ⟨hrd, had⟩
            · -- upStep yc d 2
              have hps : psPos d.pitch = psPos c.pitch + 2 :=
                wt_above_of_flat hsi3 hpi3 hf had
              have e3 : staffPos c.pitch = staffPos yc.pitch := by rw [hC.2]
              have e4 : psPos c.pitch = psPos yc.pitch := by rw [hC.2]
              exact ⟨by omega, by omega⟩
          · -- pivot keeps its pitch
            exact ih q1 ya yb yc d _ _ _
              (Or.inl (obsEqv_trans hB (obsEqv_setColor _ _)))
              (Or.inl (obsEqv_trans hC (flatAwareFire_obsEqv_of_not_flat _ _ _ hf)))
              (obsEqv_setColor _ _)
        · -- cascade: the second carried slot is a cleared pivot, the new
          -- pivot is accidental-free, so nothing is cleared
          have hcnf : ¬ c.pitch.accidental = some AccName.flat := by
            rw [hC.2, hncB.2]
            intro hx
            cases hx
          exact ih q1 ya yb yc d _ _ _
            (Or.inr ⟨hctxB, clearedPitch_setColor _ hclB, hncB, hupB⟩)
            (Or.inl (obsEqv_trans hC (flatAwareFire_obsEqv_of_not_flat _ _ _ hcnf)))
            (obsEqv_setColor _ _)
      · -- a cleared first slot cannot start a rule-2 window
        exfalso
        have e1 := clearedPitch_ps hclA hctxA.2.1
        rcases hB with hB | ⟨hctxB, hclB, hncB, hupB⟩
        · have e2 : psPos b.pitch = psPos yb.pitch := by rw [hB.2]
          have e3 := hupA.2
          omega
        · have hx := hctxB.2.2.2.2.1.2
          rw [hctxA.2.1] at hx
          cases hx
    · show LR true q2 q1 (ya :: yb :: yc :: d :: rest)
        ((pass4Go rule2Match (flatAwareFire RULE_TWO "ForestGreen" "ForestGreen")
          "purple" a b c (d :: rest)).1)
      rw [show (pass4Go rule2Match (flatAwareFire RULE_TWO "ForestGreen" "ForestGreen")
          "purple" a b c (d :: rest)).1 =
        a :: (pass4Go rule2Match (flatAwareFire RULE_TWO "ForestGreen" "ForestGreen")
          "purple" b c d rest).1 by simp [pass4Go, hm]]
      have htail := ih q1 ya yb yc d b c d hB (Or.inl hC) (obsEqv_refl d)
      rcases hA with hA | ⟨hctx, hcl, hn1, hn2⟩
      · exact .eq hA htail
      · exact .cl2 hctx ⟨hn1, hn2⟩ hcl htail

/-- Relation between a stream and the output of `capuaRuleTwo` on it. -/
theorem rel2_est (q2 q1 : CNote) (t : List CNote) :
    LR true q2 q1 t (capuaRuleTwo t).1 := by
  match t with
  | [] => exact .nil ..
  | [a] => exact .eq (obsEqv_refl a) (.nil ..)
  | [a, b] => exact .eq (obsEqv_refl a) (.eq (obsEqv_refl b) (.nil ..))
  | a :: b :: c :: rest =>
    exact rel2_go rest q2 q1 a b c a b c (Or.inl (obsEqv_refl a))
      (Or.inl (obsEqv_refl b)) (obsEqv_refl c)

theorem obsEqv_setColor_congr (c : String) {y x : CNote} (h : obsEqv y x) :
    obsEqv (setColor c y) (setColor c x) := ⟨h.1, h.2⟩

theorem rule3Fire_obs_congr {y x : CNote} (h : obsEqv y x) :
    obsEqv (rule3Fire y) (rule3Fire x) := ⟨h.1, h.2⟩

/-- Replacing the ghost parameters by a fired copy of `p2` and a re-colored
copy of `p1` preserves the relation. -/
theorem LR_params_fire {t2 : Bool} {p2 p1 : CNote} {ys xs : List CNote}
    (r : Nat) (gf ge col : String) (h : LR t2 p2 p1 ys xs) :
    LR t2 (flatAwareFire r gf ge p2) (setColor col p1) ys xs := by
  by_cases hf : p2.pitch.accidental = some AccName.flat
  · exact LR_params (LR_params_flat h hf) rfl rfl rfl rfl
  · have hp := flatAwareFire_pitch r gf ge p2
    exact LR_params h rfl rfl hp.1 (by rw [hp.2, if_neg hf])

/-- Coupled run of the rule-2 scan on two streams related by the rule-1
clearing relation: the match counts agree. -/
theorem r2_bisim_go : ∀ (ys xs : List CNote) (q2 q1 ya yb yc a b c : CNote),
    LR false q2 q1 (ya :: yb :: yc :: ys) (a :: b :: c :: xs) →
    (pass4Go rule2Match (flatAwareFire RULE_TWO "ForestGreen" "ForestGreen")
      "purple" a b c xs).2 =
    (pass4Go rule2Match (flatAwareFire RULE_TWO "ForestGreen" "ForestGreen")
      "purple" ya yb yc ys).2 := by
  intro ys
  induction ys with
  | nil =>
    intro xs q2 q1 ya yb yc a b c h
    have hx : xs = [] := LR_nil_right (LR_tail (LR_tail (LR_tail h)))
    subst hx
    rfl
  | cons yd ys ih =>
    intro xs q2 q1 ya yb yc a b c h
    obtain ⟨d, xs', hx⟩ := LR_cons_right (LR_tail (LR_tail (LR_tail h)))
    subst hx
    obtain ⟨hmeq, hobs⟩ := r2_win h
    by_cases hm : rule2Match ya yb yc yd = true
    · have hmx : rule2Match a b c d = true := by rw [hmeq]; exact hm
      obtain ⟨e1, e2, e3, e4⟩ := hobs hm
      have htail4 : LR false yc yd ys xs' :=
        LR_tail (LR_tail (LR_tail (LR_tail h)))
      have hrec : LR false q2 q1
          (setColor "purple" yb ::
            flatAwareFire RULE_TWO "ForestGreen" "ForestGreen" yc ::
            setColor "purple" yd :: ys)
          (setColor "purple" b ::
            flatAwareFire RULE_TWO "ForestGreen" "ForestGreen" c ::
            setColor "purple" d :: xs') :=
        .eq (obsEqv_setColor_congr _ e2)
          (.eq (flatAwareFire_obs_congr _ _ _ e3)
            (.eq (obsEqv_setColor_congr _ e4)
              (LR_params_fire _ _ _ _ htail4)))
      have hxc : (pass4Go rule2Match
          (flatAwareFire RULE_TWO "ForestGreen" "ForestGreen")
          "purple" a b c (d :: xs')).2 =
        (pass4Go rule2Match (flatAwareFire RULE_TWO "ForestGreen" "ForestGreen")
          "purple" (setColor "purple" b)
          (flatAwareFire RULE_TWO "ForestGreen" "ForestGreen" c)
          (setColor "purple" d) xs').2 + 1 := by
        simp [pass4Go, hmx]
      have hyc : (pass4Go rule2Match
          (flatAwareFire RULE_TWO "ForestGreen" "ForestGreen")
          "purple" ya yb yc (yd :: ys)).2 =
        (pass4Go rule2Match (flatAwareFire RULE_TWO "ForestGreen" "ForestGreen")
          "purple" (setColor "purple" yb)
          (flatAwareFire RULE_TWO "ForestGreen" "ForestGreen" yc)
          (setColor "purple" yd) ys).2 + 1 := by
        simp [pass4Go, hm]
      rw [hxc, hyc, ih xs' q2 q1 _ _ _ _ _ _ hrec]
    · have hmy : rule2Match ya yb yc yd = false := bool_eq_false hm
      have hmx : rule2Match a b c d = false := by rw [hmeq]; exact hmy
      have hxc : (pass4Go rule2Match
          (flatAwareFire RULE_TWO "ForestGreen" "ForestGreen")
          "purple" a b c (d :: xs')).2 =
        (pass4Go rule2Match (flatAwareFire RULE_TWO "ForestGreen" "ForestGreen")
          "purple" b c d xs').2 := by
        simp [pass4Go, hmx]
      have hyc : (pass4Go rule2Match
          (flatAwareFire RULE_TWO "ForestGreen" "ForestGreen")
          "purple" ya yb yc (yd :: ys)).2 =
        (pass4Go rule2Match (flatAwareFire RULE_TWO "ForestGreen" "ForestGreen")
          "purple" yb yc yd ys).2 := by
        simp [pass4Go, hmy]
      rw [hxc, hyc, ih xs' q1 ya _ _ _ _ _ _ (LR_tail h)]

/-- Count equality for `capuaRuleTwo` over the rule-1 clearing relation. -/
theorem r2_count_eq {q2 q1 : CNote} : ∀ {ys xs : List CNote},
    LR false q2 q1 ys xs → (capuaRuleTwo xs).2 = (capuaRuleTwo ys).2 := by
  intro ys xs h
  match ys, xs, h with
  | [], xs, h =>
    have hx := LR_nil_right h
    subst hx
    rfl
  | [ya], xs, h =>
    obtain ⟨a, xs1, hx⟩ := LR_cons_right h
    subst hx
    have hx1 := LR_nil_right (LR_tail h)
    subst hx1
    rfl
  | [ya, yb], xs, h =>
    obtain ⟨a, xs1, hx⟩ := LR_cons_right h
    subst hx
    obtain ⟨b, xs2, hx1⟩ := LR_cons_right (LR_tail h)
    subst hx1
    have hx2 := LR_nil_right (LR_tail (LR_tail h))
    subst hx2
    rfl
  | ya :: yb :: yc :: ys', xs, h =>
    obtain ⟨a, xs1, hx⟩ := LR_cons_right h
    subst hx
    obtain ⟨b, xs2, hx1⟩ := LR_cons_right (LR_tail h)
    subst hx1
    obtain ⟨c, xs3, hx2⟩ := LR_cons_right (LR_tail (LR_tail h))
    subst hx2
    exact r2_bisim_go ys' xs3 q2 q1 ya yb yc a b c h

/-- Coupled run of the rule-3 scan on two streams related by the combined
clearing relation: the match counts agree. -/
theorem r3_bisim_go : ∀ (ys xs : List CNote) (q2 q1 ya yb a b : CNote),
    LR true q2 q1 (ya :: yb :: ys) (a :: b :: xs) →
    (pass3Go rule3Match rule3Fire "DeepPink" a b xs).2 =
    (pass3Go rule3Match rule3Fire "DeepPink" ya yb ys).2 := by
  intro ys
  induction ys with
  | nil =>
    intro xs q2 q1 ya yb a b h
    have hx : xs = [] := LR_nil_right (LR_tail (LR_tail h))
    subst hx
    rfl
  | cons yc ys ih =>
    intro xs q2 q1 ya yb a b h
    obtain ⟨c, xs', hx⟩ := LR_cons_right (LR_tail (LR_tail h))
    subst hx
    obtain ⟨hmeq, hobs⟩ := r3_win h
    by_cases hm : rule3Match ya yb yc = true
    · have hmx : rule3Match a b c = true := by rw [hmeq]; exact hm
      obtain ⟨e1, e2, e3⟩ := hobs hm
      have htail3 : LR true yb yc ys xs' := LR_tail (LR_tail (LR_tail h))
      have htail' : LR true (rule3Fire yb) (setColor "DeepPink" yc) ys xs' :=
        LR_params htail3 rfl rfl rfl rfl
      have hrec : LR true q2 q1
          (rule3Fire yb :: setColor "DeepPink" yc :: ys)
          (rule3Fire b :: setColor "DeepPink" c :: xs') :=
        .eq (rule3Fire_obs_congr e2) (.eq (obsEqv_setColor_congr _ e3) htail')
      have hxc : (pass3Go rule3Match rule3Fire "DeepPink" a b (c :: xs')).2 =
          (pass3Go rule3Match rule3Fire "DeepPink" (rule3Fire b)
            (setColor "DeepPink" c) xs').2 + 1 := by
        simp [pass3Go, hmx]
      have hyc : (pass3Go rule3Match rule3Fire "DeepPink" ya yb (yc :: ys)).2 =
          (pass3Go rule3Match rule3Fire "DeepPink" (rule3Fire yb)
            (setColor "DeepPink" yc) ys).2 + 1 := by
        simp [pass3Go, hm]
      rw [hxc, hyc, ih xs' q2 q1 _ _ _ _ hrec]
    · have hmy : rule3Match ya yb yc = false := bool_eq_false hm
      have hmx : rule3Match a b c = false := by rw [hmeq]; exact hmy
      have hxc : (pass3Go rule3Match rule3Fire "DeepPink" a b (c :: xs')).2 =
          (pass3Go rule3Match rule3Fire "DeepPink" b c xs').2 := by
        simp [pass3Go, hmx]
      have hyc : (pass3Go rule3Match rule3Fire "DeepPink" ya yb (yc :: ys)).2 =
          (pass3Go rule3Match rule3Fire "DeepPink" yb yc ys).2 := by
        simp [pass3Go, hmy]
      rw [hxc, hyc, ih xs' q1 ya _ _ _ _ (LR_tail h)]

/-- Count equality for `capuaRuleThree` over the combined clearing relation. -/
theorem r3_count_eq {q2 q1 : CNote} : ∀ {ys xs : List CNote},
    LR true q2 q1 ys xs → (capuaRuleThree xs).2 = (capuaRuleThree ys).2 := by
  intro ys xs h
  match ys, xs, h with
  | [], xs, h =>
    have hx := LR_nil_right h
    subst hx
    rfl
  | [ya], xs, h =>
    obtain ⟨a, xs1, hx⟩ := LR_cons_right h
    subst hx
    have hx1 := LR_nil_right (LR_tail h)
    subst hx1
    rfl
  | ya :: yb :: ys', xs, h =>
    obtain ⟨a, xs1, hx⟩ := LR_cons_right h
    subst hx
    obtain ⟨b, xs2, hx1⟩ := LR_cons_right (LR_tail h)
    subst hx1
    exact r3_bisim_go ys' xs2 q2 q1 ya yb a b h

/-- Coupled run of the rule-4B scan on two streams related by the combined
clearing relation: the match counts agree. -/
theorem r4_bisim_go : ∀ (ys xs : List CNote) (q2 q1 ya yb a b : CNote),
    LR true q2 q1 (ya :: yb :: ys) (a :: b :: xs) →
    (pass3Go rule4BMatch (flatAwareFire RULE_FOUR_B "green" "green")
      "orange" a b xs).2 =
    (pass3Go rule4BMatch (flatAwareFire RULE_FOUR_B "green" "green")
      "orange" ya yb ys).2 := by
  intro ys
  induction ys with
  | nil =>
    intro xs q2 q1 ya yb a b h
    have hx : xs = [] := LR_nil_right (LR_tail (LR_tail h))
    subst hx
    rfl
  | cons yc ys ih =>
    intro xs q2 q1 ya yb a b h
    obtain ⟨c, xs', hx⟩ := LR_cons_right (LR_tail (LR_tail h))
    subst hx
    obtain ⟨hmeq, hobs⟩ := r4_win h
    by_cases hm : rule4BMatch ya yb yc = true
    · have hmx : rule4BMatch a b c = true := by rw [hmeq]; exact hm
      obtain ⟨e1, e2, e3⟩ := hobs hm
      have htail3 : LR true yb yc ys xs' := LR_tail (LR_tail (LR_tail h))
      have hrec : LR true q2 q1
          (flatAwareFire RULE_FOUR_B "green" "green" yb ::
            setColor "orange" yc :: ys)
          (flatAwareFire RULE_FOUR_B "green" "green" b ::
            setColor "orange" c :: xs') :=
        .eq (flatAwareFire_obs_congr _ _ _ e2)
          (.eq (obsEqv_setColor_congr _ e3) (LR_params_fire _ _ _ _ htail3))
      have hxc : (pass3Go rule4BMatch
          (flatAwareFire RULE_FOUR_B "green" "green") "orange" a b (c :: xs')).2 =
        (pass3Go rule4BMatch (flatAwareFire RULE_FOUR_B "green" "green") "orange"
          (flatAwareFire RULE_FOUR_B "green" "green" b)
          (setColor "orange" c) xs').2 + 1 := by
        simp [pass3Go, hmx]
      have hyc : (pass3Go rule4BMatch
          (flatAwareFire RULE_FOUR_B "green" "green") "orange" ya yb (yc :: ys)).2 =
        (pass3Go rule4BMatch (flatAwareFire RULE_FOUR_B "green" "green") "orange"
          (flatAwareFire RULE_FOUR_B "green" "green" yb)
          (setColor "orange" yc) ys).2 + 1 := by
        simp [pass3Go, hm]
      rw [hxc, hyc, ih xs' q2 q1 _ _ _ _ hrec]
    · have hmy : rule4BMatch ya yb yc = false := bool_eq_false hm
      have hmx : rule4BMatch a b c = false := by rw [hmeq]; exact hmy
      have hxc : (pass3Go rule4BMatch
          (flatAwareFire RULE_FOUR_B "green" "green") "orange" a b (c :: xs')).2 =
        (pass3Go rule4BMatch (flatAwareFire RULE_FOUR_B "green" "green")
          "orange" b c xs').2 := by
        simp [pass3Go, hmx]
      have hyc : (pass3Go rule4BMatch
          (flatAwareFire RULE_FOUR_B "green" "green") "orange" ya yb (yc :: ys)).2 =
        (pass3Go rule4BMatch (flatAwareFire RULE_FOUR_B "green" "green")
          "orange" yb yc ys).2 := by
        simp [pass3Go, hmy]
      rw [hxc, hyc, ih xs' q1 ya _ _ _ _ (LR_tail h)]

/-- Count equality for `capuaRuleFourB` over the combined clearing relation. -/
theorem r4_count_eq {q2 q1 : CNote} : ∀ {ys xs : List CNote},
    LR true q2 q1 ys xs → (capuaRuleFourB xs).2 = (capuaRuleFourB ys).2 := by
  intro ys xs h
  match ys, xs, h with
  | [], xs, h =>
    have hx := LR_nil_right h
    subst hx
    rfl
  | [ya], xs, h =>
    obtain ⟨a, xs1, hx⟩ := LR_cons_right h
    subst hx
    have hx1 := LR_nil_right (LR_tail h)
    subst hx1
    rfl
  | ya :: yb :: ys', xs, h =>
    obtain ⟨a, xs1, hx⟩ := LR_cons_right h
    subst hx
    obtain ⟨b, xs2, hx1⟩ := LR_cons_right (LR_tail h)
    subst hx1
    exact r4_bisim_go ys' xs2 q2 q1 ya yb a b h

/-- The rule-3 scan never changes a note's pitch or rest status. -/
theorem r3_obs_go : ∀ (rest : List CNote) (ya yb a b : CNote),
    obsEqv ya a → obsEqv yb b →
    List.Forall₂ obsEqv (ya :: yb :: rest)
      ((pass3Go rule3Match rule3Fire "DeepPink" a b rest).1) := by
  intro rest
  induction rest with
  | nil =>
    intro ya yb a b hA hB
    exact .cons hA (.cons hB .nil)
  | cons c rest ih =>
    intro ya yb a b hA hB
    by_cases hm : rule3Match a b c = true
    · rw [show (pass3Go rule3Match rule3Fire "DeepPink" a b (c :: rest)).1 =
          setColor "DeepPink" a :: (pass3Go rule3Match rule3Fire "DeepPink"
            (rule3Fire b) (setColor "DeepPink" c) rest).1 by simp [pass3Go, hm]]
      exact .cons (obsEqv_trans hA (obsEqv_setColor _ _))
        (ih yb c (rule3Fire b) (setColor "DeepPink" c)
          (obsEqv_trans hB (rule3Fire_obsEqv b)) (obsEqv_setColor _ _))
    · rw [show (pass3Go rule3Match rule3Fire "DeepPink" a b (c :: rest)).1 =
          a :: (pass3Go rule3Match rule3Fire "DeepPink" b c rest).1 by
            simp [pass3Go, hm]]
      exact .cons hA (ih yb c b c hB (obsEqv_refl c))

/-- `capuaRuleThree` output is pointwise observation-equal to its input. -/
theorem rel3_est : ∀ (t : List CNote), List.Forall₂ obsEqv t (capuaRuleThree t).1 := by
  intro t
  match t with
  | [] => exact .nil
  | [a] => exact .cons (obsEqv_refl a) .nil
  | a :: b :: rest =>
    exact r3_obs_go rest a b a b (obsEqv_refl a) (obsEqv_refl b)

/-- **C2.**  Rule ordering independence: in `applyCapuaToStream`'s fixed
pipeline (rule 1, then 2, then 3, then 4B, on the ficta-cleared copy of the
input), each rule reports the same match count as running that rule alone on
the freshly cleared copy.  Rule 1 runs first in both scenarios, so the
statement covers rules 2, 3 and 4B, each applied to the stream as mutated by
the earlier pipeline stages versus applied directly to the cleared copy. -/
theorem c2_rule_ordering_independence (t : List CNote) :
    (capuaRuleTwo (capuaRuleOne (clearFicta (t.map pmfcSaveNote))).1).2 =
      (capuaRuleTwo (clearFicta (t.map pmfcSaveNote))).2 ∧
    (capuaRuleThree (capuaRuleTwo (capuaRuleOne
        (clearFicta (t.map pmfcSaveNote))).1).1).2 =
      (capuaRuleThree (clearFicta (t.map pmfcSaveNote))).2 ∧
    (capuaRuleFourB (capuaRuleThree (capuaRuleTwo (capuaRuleOne
        (clearFicta (t.map pmfcSaveNote))).1).1).1).2 =
      (capuaRuleFourB (clearFicta (t.map pmfcSaveNote))).2 := by
  have dn : CNote :=
    { isRest := true, pitch := { step := Step.C, accidental := none, octave := 4 } }
  have h1 : LR false dn dn (clearFicta (t.map pmfcSaveNote))
      (capuaRuleOne (clearFicta (t.map pmfcSaveNote))).1 :=
    rel1_est dn dn (clearFicta (t.map pmfcSaveNote))
  have h1t : LR true dn dn (clearFicta (t.map pmfcSaveNote))
      (capuaRuleOne (clearFicta (t.map pmfcSaveNote))).1 := LR_weaken h1
  have h2 : LR true dn dn (capuaRuleOne (clearFicta (t.map pmfcSaveNote))).1
      (capuaRuleTwo (capuaRuleOne (clearFicta (t.map pmfcSaveNote))).1).1 :=
    rel2_est dn dn _
  have h3 : LR true dn dn
      (capuaRuleTwo (capuaRuleOne (clearFicta (t.map pmfcSaveNote))).1).1
      (capuaRuleThree (capuaRuleTwo (capuaRuleOne
        (clearFicta (t.map pmfcSaveNote))).1).1).1 :=
    LR_of_obsEqv dn dn (rel3_est _)
  refine ⟨r2_count_eq h1, ?_, ?_⟩
  · rw [r3_count_eq h2]
    exact r3_count_eq h1t
  · rw [r4_count_eq h3, r4_count_eq h2]
    exact r4_count_eq h1t

end Capua
